import Mathlib

/-!
Verification development for the rps-network repository.

The repository crawls web pages, extracts and canonicalizes hyperlinks
(`scrape_rps.py`, `scrape_to_duckdb.py`, `deprecated/full_network_scraper.py`),
stores edge rows `(source_url, target_url, crawl_depth)` in DuckDB, and
rebuilds a graph from the stored rows (`visualize_from_db.py`).

The development has three parts:
1. a character-level model of the CPython 3.11 `urllib.parse` functions
   (`urlsplit`, `urlparse`, `urljoin`, `urlunsplit`, `urlunparse`) restricted
   to the raising-free inputs, used to model the link canonicalization step
   `clean_url = urljoin(absolute_url, parsed_url.path)`;
2. a model of `CrawlManager.crawl` from `deprecated/full_network_scraper.py`
   (visited set, FIFO frontier deque, in-memory graph, DuckDB insert log);
3. a model of `create_graph_from_duckdb` from `visualize_from_db.py`
   (graph assembly from stored edge rows).

URLs are modelled as `List Char` in part 1 (character-level string
processing) and as opaque `String` keys in parts 2 and 3.
-/

/-! ### Part 1: model of `urllib.parse` as used by the scrapers

CPython 3.11 semantics, from `Lib/urllib/parse.py`.  The `ValueError`-raising
validations (`_check_bracketed_host`, `_checknetloc` for non-ASCII netlocs)
are not modelled: on such inputs the Python functions raise instead of
returning a value, so no canonical URL is produced at all.
-/

/-- Characters removed everywhere by `urlsplit` (`_UNSAFE_URL_BYTES_TO_REMOVE`:
tab, CR, LF). -/
def removeTabCrLf (l : List Char) : List Char :=
  l.filter (fun c => ¬(c = '\t' ∨ c = '\r' ∨ c = '\n'))

/-- C0 control characters and space, stripped from the left of the URL
(`_WHATWG_C0_CONTROL_OR_SPACE`). -/
def isC0OrSpace (c : Char) : Prop := c.toNat ≤ 0x20

instance (c : Char) : Decidable (isC0OrSpace c) := by
  unfold isC0OrSpace; infer_instance

/-- `str.lstrip(_WHATWG_C0_CONTROL_OR_SPACE)`. -/
def lstripC0 (l : List Char) : List Char := l.dropWhile (fun c => isC0OrSpace c)

/-- `str.strip(_WHATWG_C0_CONTROL_OR_SPACE)` (both ends), used on the default
scheme argument. -/
def stripC0 (l : List Char) : List Char :=
  ((l.dropWhile (fun c => isC0OrSpace c)).reverse.dropWhile
    (fun c => isC0OrSpace c)).reverse

/-- Characters allowed in a scheme (`scheme_chars`). -/
def scheme_chars : List Char :=
  "abcdefghijklmnopqrstuvwxyzABCDEFGHIJKLMNOPQRSTUVWXYZ0123456789+-.".toList

/-- The scheme-extraction step of `urlsplit`: if the URL has a `':'` at
position `i > 0`, the first character is an ASCII letter, and everything
before the colon is made of scheme characters, split off the lowercased
scheme.  Returns `none` when no scheme is recognized. -/
def schemeSplit (url : List Char) : Option (List Char × List Char) :=
  let pre := url.takeWhile (fun c => c ≠ ':')
  if pre.length = url.length then none
  else if pre ≠ [] ∧ (pre.headI).isAlpha ∧ ∀ c ∈ pre, c ∈ scheme_chars then
    some (pre.map Char.toLower, url.drop (pre.length + 1))
  else none

/-- `_splitnetloc(url, 2)`: the netloc runs until the first of `'/'`, `'?'`,
`'#'`; the rest (delimiter included) is returned alongside. -/
def splitnetloc (l : List Char) : List Char × List Char :=
  (l.takeWhile (fun c => ¬(c = '/' ∨ c = '?' ∨ c = '#')),
   l.dropWhile (fun c => ¬(c = '/' ∨ c = '?' ∨ c = '#')))

/-- `url.split(ch, 1)`: the part before the first occurrence of `ch` and the
part after it (assuming `ch` occurs; callers guard with `contains`). -/
def splitFirstAt (ch : Char) (l : List Char) : List Char × List Char :=
  (l.takeWhile (fun c => c ≠ ch), (l.dropWhile (fun c => c ≠ ch)).drop 1)

/-- Result of `urlsplit`. -/
structure SplitRes where
  scheme : List Char
  netloc : List Char
  path : List Char
  query : List Char
  fragment : List Char
deriving DecidableEq, Repr

/-- The netloc stage of `urlsplit`: `if url[:2] == '//': netloc, url =
_splitnetloc(url, 2)`.  Returns `(netloc, rest)`. -/
def netlocStep (w : List Char) : List Char × List Char :=
  if w.take 2 = ['/', '/'] then splitnetloc (w.drop 2) else ([], w)

/-- The fragment stage of `urlsplit`: `if '#' in url: url, fragment =
url.split('#', 1)`. -/
def splitFrag (w : List Char) : List Char × List Char :=
  if w.contains '#' then splitFirstAt '#' w else (w, [])

/-- The query stage of `urlsplit`: `if '?' in url: url, query =
url.split('?', 1)`. -/
def splitQuery (w : List Char) : List Char × List Char :=
  if w.contains '?' then splitFirstAt '?' w else (w, [])

/-- CPython `urlsplit(url, scheme, allow_fragments=True)`. -/
def urlsplit (url defScheme : List Char) : SplitRes :=
  let url := removeTabCrLf (lstripC0 url)
  let defScheme := removeTabCrLf (stripC0 defScheme)
  let (scheme, url) :=
    match schemeSplit url with
    | some (s, rest) => (s, rest)
    | none => (defScheme, url)
  let (netloc, url) := netlocStep url
  let (url, fragment) := splitFrag url
  let (url, query) := splitQuery url
  ⟨scheme, netloc, url, query, fragment⟩

/-- Schemes using parameters (`uses_params`). -/
def uses_params : List (List Char) :=
  ["", "ftp", "hdl", "prospero", "http", "imap", "https", "shttp", "rtsp",
   "rtsps", "rtspu", "sip", "sips", "mms", "sftp", "tel"].map String.toList

/-- Schemes for which relative resolution applies (`uses_relative`). -/
def uses_relative : List (List Char) :=
  ["", "ftp", "http", "gopher", "nntp", "imap", "wais", "file", "https",
   "shttp", "mms", "prospero", "rtsp", "rtsps", "rtspu", "sftp", "svn",
   "svn+ssh", "ws", "wss"].map String.toList

/-- Schemes with a network location (`uses_netloc`). -/
def uses_netloc : List (List Char) :=
  ["", "ftp", "http", "gopher", "nntp", "telnet", "imap", "wais", "file",
   "mms", "https", "shttp", "snews", "prospero", "rtsp", "rtsps", "rtspu",
   "rsync", "svn", "svn+ssh", "sftp", "nfs", "git", "git+ssh", "ws",
   "wss"].map String.toList

/-- The segment of `l` after its last `'/'` (all of `l` when there is no
`'/'`). -/
def lastSegment (l : List Char) : List Char :=
  (l.reverse.takeWhile (fun c => c ≠ '/')).reverse

/-- CPython `_splitparams(url)`: when the URL contains `'/'`, parameters are
searched only in the last segment; otherwise at the first `';'`. -/
def splitparams (url : List Char) : List Char × List Char :=
  if url.contains '/' then
    let seg := lastSegment url
    if seg.contains ';' then
      (url.take (url.length - seg.length) ++ seg.takeWhile (fun c => c ≠ ';'),
       (seg.dropWhile (fun c => c ≠ ';')).drop 1)
    else (url, [])
  else
    (url.takeWhile (fun c => c ≠ ';'), (url.dropWhile (fun c => c ≠ ';')).drop 1)

/-- Result of `urlparse`. -/
structure ParseRes where
  scheme : List Char
  netloc : List Char
  path : List Char
  params : List Char
  query : List Char
  fragment : List Char
deriving DecidableEq, Repr

/-- CPython `urlparse(url, scheme, allow_fragments=True)`:
`urlsplit` plus parameter splitting for schemes in `uses_params`. -/
def urlparse (url defScheme : List Char) : ParseRes :=
  let r := urlsplit url defScheme
  if r.scheme ∈ uses_params ∧ r.path.contains ';' then
    let (p, par) := splitparams r.path
    ⟨r.scheme, r.netloc, p, par, r.query, r.fragment⟩
  else ⟨r.scheme, r.netloc, r.path, [], r.query, r.fragment⟩

/-- CPython `urlunsplit((scheme, netloc, url, query, fragment))`. -/
def urlunsplit (scheme netloc url query fragment : List Char) : List Char :=
  let url :=
    if netloc ≠ [] ∨ (scheme ≠ [] ∧ scheme ∈ uses_netloc ∧ url.take 2 ≠ ['/', '/']) then
      let url := if url ≠ [] ∧ url.take 1 ≠ ['/'] then '/' :: url else url
      '/' :: '/' :: (netloc ++ url)
    else url
  let url := if scheme ≠ [] then scheme ++ ':' :: url else url
  let url := if query ≠ [] then url ++ '?' :: query else url
  if fragment ≠ [] then url ++ '#' :: fragment else url

/-- CPython `urlunparse((scheme, netloc, url, params, query, fragment))`. -/
def urlunparse (scheme netloc url params query fragment : List Char) : List Char :=
  urlunsplit scheme netloc (if params ≠ [] then url ++ ';' :: params else url)
    query fragment

/-- `str.split('/')` on character lists (always returns a nonempty list of
`'/'`-free segments). -/
def splitSeg : List Char → List (List Char)
  | [] => [[]]
  | c :: rest =>
    match splitSeg rest with
    | [] => [[c]]
    | s :: ss => if c = '/' then [] :: s :: ss else (c :: s) :: ss

/-- `'/'.join(...)` on character lists. -/
def joinSeg : List (List Char) → List Char
  | [] => []
  | [s] => s
  | s :: ss => s ++ '/' :: joinSeg ss

/-- The `resolved_path` accumulation loop of `urljoin`: `'..'` pops (a pop on
an empty list is ignored), `'.'` is skipped, everything else is appended. -/
def resolveLoop (acc : List (List Char)) : List (List Char) → List (List Char)
  | [] => acc
  | seg :: rest =>
    if seg = ['.', '.'] then resolveLoop acc.dropLast rest
    else if seg = ['.'] then resolveLoop acc rest
    else resolveLoop (acc ++ [seg]) rest

/-- CPython 3.11 `urljoin(base, url, allow_fragments=True)`. -/
def urljoin (base url : List Char) : List Char :=
  if base = [] then url
  else if url = [] then base
  else
    let b := urlparse base []
    let r := urlparse url b.scheme
    if r.scheme ≠ b.scheme ∨ r.scheme ∉ uses_relative then url
    else if r.scheme ∈ uses_netloc ∧ r.netloc ≠ [] then
      urlunparse r.scheme r.netloc r.path r.params r.query r.fragment
    else
      let netloc := if r.scheme ∈ uses_netloc then b.netloc else r.netloc
      if r.path = [] ∧ r.params = [] then
        urlunparse r.scheme netloc b.path b.params
          (if r.query = [] then b.query else r.query) r.fragment
      else
        let base_parts := splitSeg b.path
        let base_parts :=
          if base_parts.getLast? = some [] then base_parts else base_parts.dropLast
        let segments :=
          if r.path.take 1 = ['/'] then splitSeg r.path
          else
            match base_parts ++ splitSeg r.path with
            | [] => []
            | s0 :: rest =>
              s0 :: ((rest.dropLast.filter (fun seg => seg ≠ [])) ++
                     rest.getLast?.toList)
        let resolved := resolveLoop [] segments
        let resolved :=
          if segments.getLast? = some ['.'] ∨ segments.getLast? = some ['.', '.'] then
            resolved ++ [[]]
          else resolved
        let joined := joinSeg resolved
        urlunparse r.scheme netloc (if joined = [] then ['/'] else joined)
          r.params r.query r.fragment

/-- The parse the scrapers perform on a candidate absolute URL:
`urlparse(absolute_url)` with the default empty scheme. -/
def parseAbs (url : List Char) : ParseRes := urlparse url []

/-- The acceptance test of `get_links_from_single_page` /
`CrawlManager._get_links_from_page`:
`parsed_url.scheme in ['http', 'https'] and parsed_url.netloc`. -/
def acceptUrl (url : List Char) : Prop :=
  ((parseAbs url).scheme = "http".toList ∨ (parseAbs url).scheme = "https".toList)
  ∧ (parseAbs url).netloc ≠ []

instance (url : List Char) : Decidable (acceptUrl url) := by
  unfold acceptUrl; infer_instance

/-- The canonicalization both scrapers apply to an accepted absolute URL:
`clean_url = urljoin(absolute_url, parsed_url.path)`. -/
def cleanUrl (url : List Char) : List Char := urljoin url (parseAbs url).path

/-! ### Part 2: model of `CrawlManager.crawl` (deprecated/full_network_scraper.py)

URLs are opaque `String` keys here.  The page fetch plus link extraction
(`_get_links_from_page`) is abstracted as a function `links : String →
List String` giving the list of clean links found on each page (the Python
function returns `[]` when the fetch fails; `getLinksE` below models that
explicitly).  The state carries the visited set, the FIFO frontier deque of
`(url, depth)` pairs, the in-memory NetworkX graph, the log of rows inserted
into the `website_links` DuckDB table, and the list of URLs actually
fetched (one entry per call to `_get_links_from_page`).
-/

/-- The in-memory NetworkX `DiGraph` of the crawler: nodes carry an optional
`depth` attribute (`add_edge` creates attribute-less nodes; `add_node(url,
depth=d)` sets the attribute). -/
structure CGraph where
  nodes : List (String × Option Nat)
  edges : List (String × String)
deriving DecidableEq, Repr

/-- `graph.add_node(u, depth=d)`: inserts the node or updates its `depth`
attribute. -/
def CGraph.addNodeDepth (g : CGraph) (u : String) (d : Nat) : CGraph :=
  if (g.nodes.lookup u).isSome then
    { g with nodes := g.nodes.map (fun p => if p.1 = u then (p.1, some d) else p) }
  else { g with nodes := g.nodes ++ [(u, some d)] }

/-- `graph.add_edge(s, t)`: inserts missing endpoints (without a depth
attribute) and the edge; duplicates are no-ops. -/
def CGraph.addEdge (g : CGraph) (s t : String) : CGraph :=
  let g := if (g.nodes.lookup s).isSome then g
           else { g with nodes := g.nodes ++ [(s, none)] }
  let g := if (g.nodes.lookup t).isSome then g
           else { g with nodes := g.nodes ++ [(t, none)] }
  if (s, t) ∈ g.edges then g else { g with edges := g.edges ++ [(s, t)] }

/-- State of `CrawlManager` during `crawl`. -/
structure CrawlState where
  visited : List String
  queue : List (String × Nat)
  graph : CGraph
  rows : List (String × String × Nat)
  fetched : List String
deriving DecidableEq, Repr

namespace CrawlManager

/-- One run of the `while self.urls_to_visit` loop body, iterated `fuel`
times (the loop itself has no fuel bound; every claim quantifies over all
fuel values).  Mirrors `CrawlManager.crawl`:
pop left; skip when already visited or too deep; otherwise mark visited,
`add_node` with the current depth, fetch links, `add_edge` and record an
insert row for every link, and append `(link, depth+1)` for links not in
the visited set. -/
def crawl (links : String → List String) (maxDepth : Nat) :
    Nat → CrawlState → CrawlState
  | 0, st => st
  | Nat.succ fuel, st =>
    match st.queue with
    | [] => st
    | (u, d) :: rest =>
      if u ∈ st.visited ∨ maxDepth < d then
        crawl links maxDepth fuel { st with queue := rest }
      else
        let visited' := st.visited ++ [u]
        let found := links u
        let g' := found.foldl (fun g l => g.addEdge u l) (st.graph.addNodeDepth u d)
        let newRows := found.map (fun l => (u, l, d))
        let newQ := rest ++ (found.filter (fun l => l ∉ visited')).map (fun l => (l, d + 1))
        crawl links maxDepth fuel
          { visited := visited', queue := newQ, graph := g',
            rows := st.rows ++ newRows, fetched := st.fetched ++ [u] }

/-- Initial state of `CrawlManager.__init__`: empty visited set, the seed at
depth 0 in the deque, empty graph and empty table. -/
def initState (start_url : String) : CrawlState :=
  ⟨[], [(start_url, 0)], ⟨[], []⟩, [], []⟩

/-- A full crawl from the seed. -/
def crawlRun (links : String → List String) (start_url : String)
    (maxDepth fuel : Nat) : CrawlState :=
  crawl links maxDepth fuel (initState start_url)

end CrawlManager

/-- `_get_links_from_page` / `get_links_from_single_page` at the level of the
fetch outcome: a successful fetch yields the page's extracted links, any
`requests.exceptions.RequestException` is caught and yields `[]`. -/
def getLinksE (fetch : String → Except Unit (List String)) (u : String) :
    List String :=
  match fetch u with
  | .ok ls => ls
  | .error _ => []

/-- A full crawl whose pages can fail to fetch. -/
def crawlRunE (fetch : String → Except Unit (List String)) (start_url : String)
    (maxDepth fuel : Nat) : CrawlState :=
  CrawlManager.crawlRun (getLinksE fetch) start_url maxDepth fuel

/-- `get_links_from_single_page` (scrape_rps.py) at the level of fetch
attempts: the function performs exactly one `requests.get` (attempt `0`);
on success it returns the page's links, on `RequestException` it prints and
returns `[]`.  The attempt index makes it expressible whether any further
attempt could have been consulted. -/
def get_links_from_single_page (attempts : Nat → Except Unit (List String)) :
    List String :=
  match attempts 0 with
  | .ok ls => ls
  | .error _ => []

/-! ### Part 3: model of `create_graph_from_duckdb` (visualize_from_db.py)

The stored table rows are `(source_url, target_url, crawl_depth)` tuples.
The assembler adds the source node with depth `crawl_depth` when absent, the
target node with depth `crawl_depth + 1` when absent, and the edge; it then
forces the seed's depth to 0 when the seed is a node.  Note the Python code
nests `if target_url not in graph:` twice, so its `else` branch (the
shallower-depth update, with `float('inf')` as the missing-attribute
default) is unreachable; it is mirrored here verbatim. -/

/-- The assembled graph: every node carries a depth. -/
structure AGraph where
  nodes : List (String × Nat)
  edges : List (String × String)
deriving DecidableEq, Repr

/-- The depth attribute of a node of the assembled graph. -/
def nodeDepth (g : AGraph) (u : String) : Option Nat := g.nodes.lookup u

/-- `u in graph`. -/
def AGraph.hasNode (g : AGraph) (u : String) : Bool := (g.nodes.lookup u).isSome

/-- `graph.nodes[u]['depth'] = k` for a present node. -/
def AGraph.setDepth (g : AGraph) (u : String) (k : Nat) : AGraph :=
  { g with nodes := g.nodes.map (fun p => if p.1 = u then (p.1, k) else p) }

/-- Processing of one fetched row inside `create_graph_from_duckdb`'s
`for row in data:` loop. -/
def addRow (g : AGraph) (r : String × String × Nat) : AGraph :=
  let s := r.1
  let t := r.2.1
  let d := r.2.2
  let g1 := if g.hasNode s then g else { g with nodes := g.nodes ++ [(s, d)] }
  let g2 :=
    if g1.hasNode t then g1
    else
      if ¬g1.hasNode t then { g1 with nodes := g1.nodes ++ [(t, d + 1)] }
      else
        -- unreachable in Python as well: the guard above is the same test
        match g1.nodes.lookup t with
        | some cur => if d + 1 < cur then g1.setDepth t (d + 1) else g1
        | none => g1.setDepth t (d + 1)
  -- graph.add_edge(source_url, target_url): both endpoints are present here
  if (s, t) ∈ g2.edges then g2 else { g2 with edges := g2.edges ++ [(s, t)] }

/-- The `for row in data:` loop over all fetched rows. -/
def assembleRows (rows : List (String × String × Nat)) : AGraph :=
  rows.foldl addRow ⟨[], []⟩

/-- `create_graph_from_duckdb(db_file, start_url)` on the fetched rows:
assemble all rows, then force the start URL's depth to 0 when present. -/
def create_graph_from_duckdb (rows : List (String × String × Nat))
    (start_url : String) : AGraph :=
  let g := assembleRows rows
  if g.hasNode start_url then g.setDepth start_url 0 else g

/-- Modelled from the spec: the Graph Assembler's depth-resolution rule.  A
node's final depth is the minimum over all stored edges of the depth at
which the node was observed (an observation as a source counts the edge's
recorded depth, an observation as a target counts the edge depth plus one),
except the seed whose depth is 0 regardless.  Used only to compare the
spec's rule with what `create_graph_from_duckdb` computes. -/
def specNodeDepth (rows : List (String × String × Nat)) (seed u : String) :
    Option Nat :=
  let obs := rows.foldr
    (fun r acc =>
      (if r.1 = u then [r.2.2] else []) ++
      (if r.2.1 = u then [r.2.2 + 1] else []) ++ acc) []
  if u = seed then (if obs = [] then none else some 0) else obs.min?

/-! ### Concrete scenarios used by several claims -/

/-- Link structure for the max-depth scenario of C2: page `a` links to `b`
and `c`, page `b` links to `d`, other pages have no links. -/
def links2 : String → List String :=
  fun u => if u = "a" then ["b", "c"] else if u = "b" then ["d"] else []

/-- Link structure for the frontier scenario of C3: `a` links to `b` and
`c`, and `b` links to `c` again. -/
def links3 : String → List String :=
  fun u => if u = "a" then ["b", "c"] else if u = "b" then ["c"] else []

/-- Stored rows where the same target is first recorded at a deep edge and
later at a shallow one. -/
def rows1 : List (String × String × Nat) := [("a", "t", 5), ("b", "t", 0)]

/-- C1: the claim says the assembler resolves every node's depth as the
minimum over all stored edges; the code keeps the first-seen depth because
the shallower-depth update branch is dead (its guard repeats the enclosing
`if target_url not in graph:`).  On `rows1` the target `t` is first seen at
edge depth 5 (node depth 6) and later at edge depth 0 (spec minimum 1), yet
the assembled graph keeps depth 6. -/
theorem c1_assembler_keeps_first_seen_depth :
    nodeDepth (create_graph_from_duckdb rows1 "a") "t" = some 6
    ∧ specNodeDepth rows1 "a" "t" = some 1
    ∧ nodeDepth (create_graph_from_duckdb rows1 "a") "t" ≠ specNodeDepth rows1 "a" "t" := by
  refine ⟨rfl, rfl, by decide⟩

/-- C2 counterexample: in the crawl seeded at `a` with `maxDepth = 1` where
`a` links to `b`, `c` and `b` links to `d`, the node `d` (discovered at
depth 2) is present in the resulting graph, contradicting the claim that
the graph is exactly `{a, b, c}` with edges `{(a,b), (a,c)}`. -/
theorem c2_depth_two_node_in_graph :
    "d" ∈ ((CrawlManager.crawlRun links2 "a" 1 10).graph.nodes.map Prod.fst)
    ∧ ("b", "d") ∈ (CrawlManager.crawlRun links2 "a" 1 10).graph.edges := by
  decide

/-- C2 amended: with seed `a`, `maxDepth = 1`, `a → {b, c}` and `b → {d}`,
the crawl visits exactly `a`, `b`, `c` (never fetching `d`, which exceeds
the depth bound), but the graph records every discovered link, so its nodes
are `{a, b, c, d}` and its edges `{(a,b), (a,c), (b,d)}`. -/
theorem c2_graph_has_discovered_leaves :
    (CrawlManager.crawlRun links2 "a" 1 10).graph.nodes.map Prod.fst
      = ["a", "b", "c", "d"]
    ∧ (CrawlManager.crawlRun links2 "a" 1 10).graph.edges
      = [("a", "b"), ("a", "c"), ("b", "d")]
    ∧ (CrawlManager.crawlRun links2 "a" 1 10).visited = ["a", "b", "c"]
    ∧ "d" ∉ (CrawlManager.crawlRun links2 "a" 1 10).fetched := by
  decide

/-- C3 counterexample: crawling `a → {b, c}`, `b → {c}` (maxDepth 5), after
two loop iterations the pending deque holds two entries for `c`, and after
three iterations `c` is in the visited set while an entry for `c` is still
pending — refuting both the no-duplicate-pending claim and the
`pending ∩ visited = ∅` claim. -/
theorem c3_pending_not_deduplicated :
    ((CrawlManager.crawl links3 5 2 (CrawlManager.initState "a")).queue.map
        Prod.fst).count "c" = 2
    ∧ "c" ∈ (CrawlManager.crawl links3 5 3 (CrawlManager.initState "a")).visited
    ∧ "c" ∈ (CrawlManager.crawl links3 5 3 (CrawlManager.initState "a")).queue.map
        Prod.fst := by
  decide

/-- The fetch-attempt oracle whose first attempt fails and whose retry would
succeed. -/
def attemptsFail : Nat → Except Unit (List String) :=
  fun n => if n = 0 then .error () else .ok ["http://x"]

/-- C4 counterexample: a transient failure of the single `requests.get` call
immediately yields an empty link list even though a retry (attempt 1) would
succeed — no retry with backoff is performed. -/
theorem c4_no_retry_on_failure :
    get_links_from_single_page attemptsFail = []
    ∧ attemptsFail 1 = .ok ["http://x"] := ⟨rfl, rfl⟩

/-- C4 amended: fetching is attempted exactly once — a failed first attempt
immediately produces the empty link list (the URL's contribution is dropped,
with no retry, backoff, or terminal `Failed` state), and the result depends
only on attempt 0. -/
theorem c4_single_attempt_only :
    (∀ a, a 0 = .error () → get_links_from_single_page a = [])
    ∧ (∀ a b : Nat → Except Unit (List String), a 0 = b 0 →
        get_links_from_single_page a = get_links_from_single_page b) := by
  constructor
  · intro a h
    unfold get_links_from_single_page
    rw [h]
  · intro a b h
    unfold get_links_from_single_page
    rw [h]

/-- Witness for `c4_single_attempt_only` at the concrete failing oracle. -/
theorem c4_single_attempt_only_witness :
    get_links_from_single_page attemptsFail = [] :=
  c4_single_attempt_only.1 attemptsFail rfl

/-- The URL of C5's failing input: an accepted absolute URL with an empty
path and a fragment. -/
def u5 : List Char := "http://example.com#section".toList

/-- C5: the claim says every accepted URL is canonicalized to a fragment-free
URL, including URLs with an empty path.  The code computes
`urljoin(absolute_url, parsed.path)`, and `urljoin` returns the base
unchanged when its second argument is empty, so for `u5` (empty path) the
fragment `#section` survives — contradicting the code's own comment that
fragment identifiers are removed. -/
theorem c5_empty_path_keeps_fragment :
    acceptUrl u5
    ∧ (parseAbs u5).path = []
    ∧ cleanUrl u5 = u5
    ∧ (parseAbs (cleanUrl u5)).fragment = "section".toList := by
  refine ⟨by decide, rfl, rfl, rfl⟩

/-- The URL of C8's counterexample. -/
def u8 : List Char := "http://h//x//y".toList

/-- C8 counterexample: normalization is not idempotent.  For the accepted
URL `http://h//x//y` (path `//x//y`), one normalization gives
`http://x//y` (the `//`-prefixed path is reinterpreted as a new authority),
and normalizing that again gives `http://y`. -/
theorem c8_clean_not_idempotent :
    acceptUrl u8
    ∧ cleanUrl u8 = "http://x//y".toList
    ∧ cleanUrl (cleanUrl u8) = "http://y".toList
    ∧ cleanUrl (cleanUrl u8) ≠ cleanUrl u8 := by
  refine ⟨by decide, rfl, rfl, by decide⟩

/-- The URL of C10's counterexample. -/
def u10 : List Char := "http://h//?q".toList

/-- C10 counterexample: for the accepted URL `http://h//?q` the parsed path
`//` is non-empty, yet the canonical URL keeps the query `q` (the `//` path
re-parses to an empty path, and `urljoin` then copies the base's query). -/
theorem c10_query_survives_on_doubleslash_path :
    acceptUrl u10
    ∧ (parseAbs u10).path = "//".toList
    ∧ (parseAbs u10).path ≠ []
    ∧ cleanUrl u10 = u10
    ∧ (parseAbs (cleanUrl u10)).query = "q".toList := by
  refine ⟨by decide, rfl, by decide, rfl, rfl⟩

/-! ### Crawl invariants: visited-set discipline -/

/-- The crawl never puts a duplicate into the visited set: a URL is added
only when the dequeue check `current_url in self.visited_urls` fails. -/
theorem crawl_visited_nodup (links : String → List String) (maxD : Nat) :
    ∀ fuel st, st.visited.Nodup →
      (CrawlManager.crawl links maxD fuel st).visited.Nodup := by
  intro fuel
  induction fuel with
  | zero => intro st h; simpa [CrawlManager.crawl] using h
  | succ n ih =>
    intro st h
    rw [CrawlManager.crawl]
    cases hq : st.queue with
    | nil => exact h
    | cons p rest =>
      obtain ⟨u, d⟩ := p
      by_cases hc : u ∈ st.visited ∨ maxD < d
      · simp only [hc, if_true]
        exact ih _ h
      · simp only [hc, if_false]
        apply ih
        push_neg at hc
        simp [List.nodup_append, h, hc.1]

/-- The fetched log and the visited set are extended together: whenever they
start equal they stay equal (a URL is fetched exactly when it enters the
visited set). -/
theorem crawl_fetched_eq_visited (links : String → List String) (maxD : Nat) :
    ∀ fuel st, st.fetched = st.visited →
      (CrawlManager.crawl links maxD fuel st).fetched
        = (CrawlManager.crawl links maxD fuel st).visited := by
  intro fuel
  induction fuel with
  | zero => intro st h; simpa [CrawlManager.crawl] using h
  | succ n ih =>
    intro st h
    rw [CrawlManager.crawl]
    cases hq : st.queue with
    | nil => exact h
    | cons p rest =>
      obtain ⟨u, d⟩ := p
      by_cases hc : u ∈ st.visited ∨ maxD < d
      · simp only [hc, if_true]
        exact ih _ h
      · simp only [hc, if_false]
        apply ih
        simp [h]

/-- The visited set only grows: continuing a crawl appends to it. -/
theorem crawl_visited_extends (links : String → List String) (maxD : Nat) :
    ∀ fuel st, ∃ tl,
      (CrawlManager.crawl links maxD fuel st).visited = st.visited ++ tl := by
  intro fuel
  induction fuel with
  | zero => intro st; exact ⟨[], by simp [CrawlManager.crawl]⟩
  | succ n ih =>
    intro st
    rw [CrawlManager.crawl]
    cases hq : st.queue with
    | nil => exact ⟨[], by simp⟩
    | cons p rest =>
      obtain ⟨u, d⟩ := p
      by_cases hc : u ∈ st.visited ∨ maxD < d
      · simp only [hc, if_true]
        exact ih _
      · simp only [hc, if_false]
        obtain ⟨tl, htl⟩ := ih _
        exact ⟨[u] ++ tl, htl.trans (by simp)⟩

/-- C3 amended: the pending deque is not deduplicated against itself or
against the visited set (see `c3_pending_not_deduplicated`); the invariant
the crawl does maintain is that a URL enters the visited set exactly once —
the visited list never acquires duplicates, and it only ever grows. -/
theorem c3_visited_entered_once (links : String → List String) (seed : String)
    (maxD fuel : Nat) :
    (CrawlManager.crawlRun links seed maxD fuel).visited.Nodup
    ∧ ∀ extra, ∃ tl,
        (CrawlManager.crawl links maxD extra
            (CrawlManager.crawlRun links seed maxD fuel)).visited
          = (CrawlManager.crawlRun links seed maxD fuel).visited ++ tl := by
  constructor
  · exact crawl_visited_nodup links maxD fuel _ (by simp [CrawlManager.initState])
  · intro extra
    exact crawl_visited_extends links maxD extra _

/-- C6: every URL is fetched at most once per crawl, however often it is
enqueued — the fetch log (one entry per `_get_links_from_page` call) never
counts any URL twice, because a URL is added to the visited set right before
its only fetch and visited URLs are skipped at dequeue. -/
theorem c6_fetched_at_most_once (links : String → List String) (seed : String)
    (maxD fuel : Nat) (u : String) :
    (CrawlManager.crawlRun links seed maxD fuel).fetched.count u ≤ 1 := by
  have h2 : (CrawlManager.crawlRun links seed maxD fuel).fetched
      = (CrawlManager.crawlRun links seed maxD fuel).visited :=
    crawl_fetched_eq_visited links maxD fuel _ rfl
  rw [h2]
  exact List.nodup_iff_count_le_one.mp
    (crawl_visited_nodup links maxD fuel _ (by simp [CrawlManager.initState])) u

/-- Fetch oracle of the C9 scenario: `a` yields `b` and `c`, fetching `b`
fails with a transient error, `c` fetches successfully with no links. -/
def fetchB : String → Except Unit (List String) :=
  fun u => if u = "a" then .ok ["b", "c"]
           else if u = "b" then .error () else .ok []

/-- C9: a page whose fetch fails never aborts the crawl: a crawl in which
`u` fails is state-for-state identical to one in which `u` succeeds with an
empty link list (the caught exception contributes `[]`), and in the
concrete scenario where `b` fails, its sibling `c` is still dequeued and
crawled and the crawl drains its frontier to normal termination. -/
theorem c9_failed_fetch_isolated :
    (∀ fetch (u seed : String) (maxD fuel : Nat), fetch u = .error () →
        crawlRunE fetch seed maxD fuel
          = crawlRunE (Function.update fetch u (.ok [])) seed maxD fuel)
    ∧ (crawlRunE fetchB "a" 1 10).visited = ["a", "b", "c"]
    ∧ (crawlRunE fetchB "a" 1 10).queue = [] := by
  refine ⟨?_, by decide, by decide⟩
  intro fetch u seed maxD fuel h
  unfold crawlRunE CrawlManager.crawlRun
  have : getLinksE fetch = getLinksE (Function.update fetch u (.ok [])) := by
    funext v
    by_cases hv : v = u
    · subst hv
      simp [getLinksE, h, Function.update]
    · simp [getLinksE, Function.update, hv]
  rw [this]

/-- Witness for `c9_failed_fetch_isolated` at the concrete failing oracle. -/
theorem c9_failed_fetch_isolated_witness :
    crawlRunE fetchB "a" 1 10
      = crawlRunE (Function.update fetchB "b" (.ok [])) "a" 1 10 :=
  c9_failed_fetch_isolated.1 fetchB "b" "a" 1 10 rfl

/-! ### List helpers for the parser proofs -/

theorem takeWhile_append_all {α : Type} (p : α → Bool) (l₁ l₂ : List α)
    (h : ∀ a ∈ l₁, p a) :
    (l₁ ++ l₂).takeWhile p = l₁ ++ l₂.takeWhile p := by
  induction l₁ with
  | nil => simp
  | cons a l ih =>
    have ha : p a := h a (by simp)
    simp only [List.cons_append, List.takeWhile_cons, ha]
    simp [ih (fun b hb => h b (by simp [hb]))]

theorem dropWhile_append_all {α : Type} (p : α → Bool) (l₁ l₂ : List α)
    (h : ∀ a ∈ l₁, p a) :
    (l₁ ++ l₂).dropWhile p = l₂.dropWhile p := by
  induction l₁ with
  | nil => simp
  | cons a l ih =>
    have ha : p a := h a (by simp)
    simp only [List.cons_append, List.dropWhile_cons, ha]
    simp [ih (fun b hb => h b (by simp [hb]))]

theorem dropWhile_head_false {α : Type} (p : α → Bool) :
    ∀ (l : List α) (b : α) (t : List α), l.dropWhile p = b :: t → p b = false := by
  intro l
  induction l with
  | nil => intro b t h; simp at h
  | cons a l ih =>
    intro b t h
    by_cases ha : p a
    · rw [List.dropWhile_cons_of_pos ha] at h
      exact ih b t h
    · rw [List.dropWhile_cons_of_neg ha] at h
      cases h
      simpa using ha

theorem mem_dropLast_or_getLast? {α : Type} (l : List α) (x : α) (hx : x ∈ l) :
    x ∈ l.dropLast ∨ l.getLast? = some x := by
  induction l with
  | nil => simp at hx
  | cons a t ih =>
    cases t with
    | nil =>
      right
      simp_all
    | cons b t' =>
      rcases List.mem_cons.mp hx with rfl | hx'
      · left
        simp [List.dropLast]
      · rcases ih hx' with h | h
        · left
          simpa [List.dropLast] using Or.inr h
        · right
          simpa using h

/-! ### Component facts about the parsing stages -/

theorem splitFrag_fst_subset (w : List Char) : ∀ c ∈ (splitFrag w).1, c ∈ w := by
  intro c hc
  unfold splitFrag at hc
  by_cases h : w.contains '#'
  · rw [if_pos h] at hc
    exact (List.takeWhile_sublist _).subset hc
  · rw [if_neg h] at hc
    exact hc

theorem splitFrag_fst_no_hash (w : List Char) : '#' ∉ (splitFrag w).1 := by
  unfold splitFrag
  by_cases h : w.contains '#'
  · rw [if_pos h]
    intro hc
    have := List.mem_takeWhile_imp hc
    simp at this
  · rw [if_neg h]
    intro hc
    exact h (by simpa using hc)

theorem splitQuery_fst_subset (w : List Char) : ∀ c ∈ (splitQuery w).1, c ∈ w := by
  intro c hc
  unfold splitQuery at hc
  by_cases h : w.contains '?'
  · rw [if_pos h] at hc
    exact (List.takeWhile_sublist _).subset hc
  · rw [if_neg h] at hc
    exact hc

theorem splitQuery_fst_no_question (w : List Char) : '?' ∉ (splitQuery w).1 := by
  unfold splitQuery
  by_cases h : w.contains '?'
  · rw [if_pos h]
    intro hc
    have := List.mem_takeWhile_imp hc
    simp at this
  · rw [if_neg h]
    intro hc
    exact h (by simpa using hc)

theorem splitFrag_cons_slash (t : List Char) :
    ∃ t', (splitFrag ('/' :: t)).1 = '/' :: t' := by
  unfold splitFrag splitFirstAt
  by_cases h : ('/' :: t).contains '#'
  · rw [if_pos h]
    exact ⟨t.takeWhile (fun c => c ≠ '#'),
      by rw [List.takeWhile_cons_of_pos (by decide)]⟩
  · rw [if_neg h]
    exact ⟨t, rfl⟩

theorem splitQuery_cons_slash (t : List Char) :
    ∃ t', (splitQuery ('/' :: t)).1 = '/' :: t' := by
  unfold splitQuery splitFirstAt
  by_cases h : ('/' :: t).contains '?'
  · rw [if_pos h]
    exact ⟨t.takeWhile (fun c => c ≠ '?'),
      by rw [List.takeWhile_cons_of_pos (by decide)]⟩
  · rw [if_neg h]
    exact ⟨t, rfl⟩

theorem splitFrag_cons_question (t : List Char) :
    ∃ t', (splitFrag ('?' :: t)).1 = '?' :: t' := by
  unfold splitFrag splitFirstAt
  by_cases h : ('?' :: t).contains '#'
  · rw [if_pos h]
    exact ⟨t.takeWhile (fun c => c ≠ '#'),
      by rw [List.takeWhile_cons_of_pos (by decide)]⟩
  · rw [if_neg h]
    exact ⟨t, rfl⟩

theorem splitQuery_cons_question (t : List Char) :
    (splitQuery ('?' :: t)).1 = [] := by
  unfold splitQuery
  rw [if_pos (by simp)]
  simp [splitFirstAt]

theorem splitFrag_cons_hash (t : List Char) : (splitFrag ('#' :: t)).1 = [] := by
  unfold splitFrag
  rw [if_pos (by simp)]
  simp [splitFirstAt]

theorem netlocStep_fst_chars (w : List Char) :
    ∀ c ∈ (netlocStep w).1, ¬(c = '/' ∨ c = '?' ∨ c = '#') := by
  intro c hc
  unfold netlocStep at hc
  by_cases h : w.take 2 = ['/', '/']
  · rw [if_pos h] at hc
    have := List.mem_takeWhile_imp hc
    simpa using this
  · rw [if_neg h] at hc
    simp at hc

theorem netlocStep_fst_subset (w : List Char) : ∀ c ∈ (netlocStep w).1, c ∈ w := by
  intro c hc
  unfold netlocStep at hc
  by_cases h : w.take 2 = ['/', '/']
  · rw [if_pos h] at hc
    exact (List.drop_sublist 2 w).subset ((List.takeWhile_sublist _).subset hc)
  · rw [if_neg h] at hc
    simp at hc

theorem netlocStep_snd_subset (w : List Char) : ∀ c ∈ (netlocStep w).2, c ∈ w := by
  intro c hc
  unfold netlocStep at hc
  by_cases h : w.take 2 = ['/', '/']
  · rw [if_pos h] at hc
    exact (List.drop_sublist 2 w).subset ((List.dropWhile_sublist _).subset hc)
  · rw [if_neg h] at hc
    exact hc

theorem netlocStep_snd_shape (w : List Char) (h : (netlocStep w).1 ≠ []) :
    (netlocStep w).2 = [] ∨
    ∃ c t, (netlocStep w).2 = c :: t ∧ (c = '/' ∨ c = '?' ∨ c = '#') := by
  unfold netlocStep at *
  by_cases h2 : w.take 2 = ['/', '/']
  · rw [if_pos h2]
    cases hd : (splitnetloc (w.drop 2)).2 with
    | nil => exact Or.inl rfl
    | cons c t =>
      refine Or.inr ⟨c, t, rfl, ?_⟩
      have h3 := dropWhile_head_false _ _ _ _ hd
      by_contra hcon
      push_neg at hcon
      simp [hcon.1, hcon.2.1, hcon.2.2] at h3
  · rw [if_neg h2] at h
    simp at h

/-! ### Facts about `lastSegment` and `splitparams` -/

theorem lastSegment_subset (l : List Char) : ∀ c ∈ lastSegment l, c ∈ l := by
  intro c hc
  unfold lastSegment at hc
  have h1 : c ∈ l.reverse.takeWhile (fun c => c ≠ '/') := List.mem_reverse.mp hc
  exact List.mem_reverse.mp ((List.takeWhile_sublist _).subset h1)

theorem lastSegment_no_slash (l : List Char) : ∀ c ∈ lastSegment l, c ≠ '/' := by
  intro c hc
  unfold lastSegment at hc
  have := List.mem_takeWhile_imp (List.mem_reverse.mp hc)
  simpa using this

theorem lastSegment_eq_self (l : List Char) (h : '/' ∉ l) : lastSegment l = l := by
  unfold lastSegment
  rw [List.takeWhile_eq_self_iff.mpr]
  · exact List.reverse_reverse l
  · intro a ha
    simp only [decide_eq_true_eq]
    intro rfl_eq
    exact h (List.mem_reverse.mp (rfl_eq ▸ ha))

theorem lastSegment_append (l₂ x : List Char) (hx : ∀ c ∈ x, c ≠ '/')
    (hl : l₂.getLast? = some '/') : lastSegment (l₂ ++ x) = x := by
  unfold lastSegment
  rw [List.reverse_append]
  obtain ⟨t, ht⟩ : ∃ t, l₂.reverse = '/' :: t := by
    have h1 : l₂.reverse.head? = some '/' := by
      rw [List.head?_reverse]
      exact hl
    cases hrev : l₂.reverse with
    | nil => rw [hrev] at h1; simp at h1
    | cons a t =>
      rw [hrev] at h1
      simp at h1
      exact ⟨t, by rw [h1]⟩
  rw [ht, takeWhile_append_all _ _ _ (by intro a ha; simpa using hx a (List.mem_reverse.mp ha)),
      List.takeWhile_cons_of_neg (by decide)]
  simp

theorem lastSegment_length_lt (l : List Char) (h : '/' ∈ l) :
    (lastSegment l).length < l.length := by
  by_contra hle
  push_neg at hle
  have hsub : (lastSegment l).Sublist l := by
    unfold lastSegment
    have h1 : (l.reverse.takeWhile (fun c => c ≠ '/')).Sublist l.reverse :=
      List.takeWhile_sublist _
    simpa using List.reverse_sublist.mpr h1
  have heq : lastSegment l = l := hsub.eq_of_length_le (by omega)
  exact lastSegment_no_slash l '/' (by rw [heq]; exact h) rfl

theorem lastSegment_decomp (l : List Char) (h : '/' ∈ l) :
    l.take (l.length - (lastSegment l).length) ++ lastSegment l = l
    ∧ (l.take (l.length - (lastSegment l).length)).getLast? = some '/' := by
  have hAB := List.takeWhile_append_dropWhile
    (p := fun c => decide (c ≠ '/')) (l := l.reverse)
  set A := l.reverse.takeWhile (fun c => decide (c ≠ '/')) with hA
  set B := l.reverse.dropWhile (fun c => decide (c ≠ '/')) with hB
  have hBne : B ≠ [] := by
    intro h0
    have hAeq : A = l.reverse := by rw [← hAB, h0, List.append_nil]
    have : ('/' : Char) ∈ A := hAeq ▸ List.mem_reverse.mpr h
    have := List.mem_takeWhile_imp this
    simp at this
  obtain ⟨b, t, hBt⟩ : ∃ b t, B = b :: t := by
    cases hBcase : B with
    | nil => exact absurd hBcase hBne
    | cons b t => exact ⟨b, t, rfl⟩
  have hb : b = '/' := by
    have := dropWhile_head_false _ _ _ _ (hB ▸ hBt)
    simpa using this
  have hlrev : l = B.reverse ++ A.reverse := by
    conv_lhs => rw [← List.reverse_reverse l, ← hAB]
    rw [List.reverse_append]
  have hseg : lastSegment l = A.reverse := rfl
  have hlen : l.length - (lastSegment l).length = B.length := by
    rw [hseg]
    have hll : l.length = B.length + A.length := by
      rw [hlrev]
      simp [Nat.add_comm]
    simp only [List.length_reverse]
    omega
  constructor
  · rw [hlen, hseg]
    conv_lhs => rw [hlrev]
    rw [List.take_left' (by simp)]
    exact hlrev.symm
  · rw [hlen]
    conv_lhs => rw [hlrev]
    rw [List.take_left' (by simp)]
    rw [List.getLast?_reverse, hBt, hb]
    rfl

theorem splitparams_no_op (l : List Char) (h : ';' ∉ lastSegment l) :
    splitparams l = (l, []) := by
  unfold splitparams
  by_cases hc : l.contains '/'
  · rw [if_pos hc]
    have hcf : (lastSegment l).contains ';' = false := by simpa using h
    simp only [hcf]
    rfl
  · rw [if_neg hc]
    have hns : '/' ∉ l := by simpa using hc
    have hl : lastSegment l = l := lastSegment_eq_self l hns
    rw [hl] at h
    have h1 : l.takeWhile (fun c => decide (c ≠ ';')) = l := by
      rw [List.takeWhile_eq_self_iff.mpr]
      intro a ha
      simp only [decide_eq_true_eq]
      intro rfl_eq
      exact h (rfl_eq ▸ ha)
    have h2 : l.dropWhile (fun c => decide (c ≠ ';')) = [] := by
      rw [List.dropWhile_eq_nil_iff.mpr]
      intro a ha
      simp only [decide_eq_true_eq]
      intro rfl_eq
      exact h (rfl_eq ▸ ha)
    rw [h1, h2]
    rfl

/-! ### Component facts about `urlsplit` and `urlparse` -/

/-- The scheme-extraction stage of `urlsplit` as a pair
`(scheme, remaining url)`. -/
def schemePair (url ds : List Char) : List Char × List Char :=
  match schemeSplit (removeTabCrLf (lstripC0 url)) with
  | some (s, rest) => (s, rest)
  | none => (removeTabCrLf (stripC0 ds), removeTabCrLf (lstripC0 url))

theorem urlsplit_eq (url ds : List Char) :
    urlsplit url ds =
      ⟨(schemePair url ds).1, (netlocStep (schemePair url ds).2).1,
       (splitQuery (splitFrag (netlocStep (schemePair url ds).2).2).1).1,
       (splitQuery (splitFrag (netlocStep (schemePair url ds).2).2).1).2,
       (splitFrag (netlocStep (schemePair url ds).2).2).2⟩ := by
  unfold urlsplit schemePair
  cases h : schemeSplit (removeTabCrLf (lstripC0 url)) with
  | none => simp only [h]
  | some p =>
    obtain ⟨s, rest⟩ := p
    simp only [h]

theorem schemePair_snd_subset (url ds : List Char) :
    ∀ c ∈ (schemePair url ds).2, c ∈ removeTabCrLf (lstripC0 url) := by
  intro c hc
  unfold schemePair at hc
  cases h : schemeSplit (removeTabCrLf (lstripC0 url)) with
  | none =>
    rw [h] at hc
    exact hc
  | some p =>
    rw [h] at hc
    unfold schemeSplit at h
    by_cases h1 : (List.takeWhile (fun c => decide (c ≠ ':'))
        (removeTabCrLf (lstripC0 url))).length = (removeTabCrLf (lstripC0 url)).length
    · simp only [h1, if_pos rfl] at h
      simp at h
    · rw [if_neg h1] at h
      by_cases h2 : (List.takeWhile (fun c => decide (c ≠ ':'))
            (removeTabCrLf (lstripC0 url))) ≠ []
          ∧ (List.takeWhile (fun c => decide (c ≠ ':'))
            (removeTabCrLf (lstripC0 url))).headI.isAlpha = true
          ∧ ∀ c ∈ (List.takeWhile (fun c => decide (c ≠ ':'))
            (removeTabCrLf (lstripC0 url))), c ∈ scheme_chars
      · rw [if_pos h2] at h
        cases h
        exact (List.drop_sublist _ _).subset hc
      · rw [if_neg h2] at h
        simp at h

theorem urlsplit_path_no_hash (url ds : List Char) :
    '#' ∉ (urlsplit url ds).path := by
  rw [urlsplit_eq]
  intro hc
  exact splitFrag_fst_no_hash _ (splitQuery_fst_subset _ _ hc)

theorem urlsplit_path_no_question (url ds : List Char) :
    '?' ∉ (urlsplit url ds).path := by
  rw [urlsplit_eq]
  intro hc
  exact splitQuery_fst_no_question _ hc

theorem urlsplit_netloc_chars (url ds : List Char) :
    ∀ c ∈ (urlsplit url ds).netloc, ¬(c = '/' ∨ c = '?' ∨ c = '#') := by
  rw [urlsplit_eq]
  exact netlocStep_fst_chars _

theorem urlsplit_path_subset (url ds : List Char) :
    ∀ c ∈ (urlsplit url ds).path, c ∈ removeTabCrLf (lstripC0 url) := by
  rw [urlsplit_eq]
  intro c hc
  exact schemePair_snd_subset url ds c
    (netlocStep_snd_subset _ c (splitFrag_fst_subset _ c (splitQuery_fst_subset _ c hc)))

theorem urlsplit_netloc_subset (url ds : List Char) :
    ∀ c ∈ (urlsplit url ds).netloc, c ∈ removeTabCrLf (lstripC0 url) := by
  rw [urlsplit_eq]
  intro c hc
  exact schemePair_snd_subset url ds c (netlocStep_fst_subset _ c hc)

theorem urlsplit_path_shape (url ds : List Char)
    (h : (urlsplit url ds).netloc ≠ []) :
    (urlsplit url ds).path = [] ∨ (urlsplit url ds).path.take 1 = ['/'] := by
  rw [urlsplit_eq] at *
  rcases netlocStep_snd_shape (schemePair url ds).2 h with h0 | ⟨c, t, hct, hc⟩
  · left
    rw [h0]
    rfl
  · rw [hct]
    rcases hc with rfl | rfl | rfl
    · right
      obtain ⟨t1, ht1⟩ := splitFrag_cons_slash t
      rw [ht1]
      obtain ⟨t2, ht2⟩ := splitQuery_cons_slash t1
      rw [ht2]
      rfl
    · left
      obtain ⟨t1, ht1⟩ := splitFrag_cons_question t
      rw [ht1]
      exact splitQuery_cons_question t1
    · left
      rw [splitFrag_cons_hash t]
      rfl

theorem splitparams_fst_facts (l : List Char) :
    (∀ c ∈ (splitparams l).1, c ∈ l)
    ∧ (';' ∉ lastSegment (splitparams l).1)
    ∧ (l.take 1 = ['/'] → (splitparams l).1.take 1 = ['/']) := by
  unfold splitparams
  by_cases hc : l.contains '/'
  · rw [if_pos hc]
    by_cases hs : (lastSegment l).contains ';'
    · rw [if_pos hs]
      have hsl : '/' ∈ l := by simpa using hc
      obtain ⟨hdec, hpre⟩ := lastSegment_decomp l hsl
      have hklt := lastSegment_length_lt l hsl
      refine ⟨?_, ?_, ?_⟩
      · intro c hcm
        rcases List.mem_append.mp hcm with hm | hm
        · exact List.take_subset _ l hm
        · exact lastSegment_subset l c ((List.takeWhile_sublist _).subset hm)
      · rw [lastSegment_append _ _ ?wh hpre]
        · intro hmem
          have := List.mem_takeWhile_imp hmem
          simp at this
        · intro c hcm
          exact lastSegment_no_slash l c ((List.takeWhile_sublist _).subset hcm)
      · intro h1
        rw [List.take_append_eq_append_take]
        have hk1 : 1 ≤ l.length - (lastSegment l).length := by omega
        rw [List.take_take]
        have hmin : min 1 (l.length - (lastSegment l).length) = 1 :=
          Nat.min_eq_left hk1
        rw [hmin, h1]
        have : (1 : Nat) - (List.take (l.length - (lastSegment l).length) l).length = 0 := by
          rw [List.length_take]
          omega
        rw [this]
        simp
    · rw [if_neg hs]
      refine ⟨fun c hcm => hcm, by simpa using hs, fun h1 => h1⟩
  · rw [if_neg hc]
    have hns : '/' ∉ l := by simpa using hc
    refine ⟨?_, ?_, ?_⟩
    · intro c hcm
      exact (List.takeWhile_sublist _).subset hcm
    · have hns2 : '/' ∉ l.takeWhile (fun c => decide (c ≠ ';')) :=
        fun hm => hns ((List.takeWhile_sublist _).subset hm)
      rw [lastSegment_eq_self _ hns2]
      intro hmem
      have := List.mem_takeWhile_imp hmem
      simp at this
    · intro h1
      exfalso
      apply hns
      cases l with
      | nil => simp at h1
      | cons a t =>
        have ha : a = '/' := by simpa using h1
        rw [ha]
        exact List.mem_cons_self _ _

theorem splitparams_snd_subset (l : List Char) :
    ∀ c ∈ (splitparams l).2, c ∈ l := by
  unfold splitparams
  by_cases hc : l.contains '/'
  · rw [if_pos hc]
    by_cases hs : (lastSegment l).contains ';'
    · rw [if_pos hs]
      intro c hcm
      exact lastSegment_subset l c
        ((List.dropWhile_sublist _).subset (List.drop_subset 1 _ hcm))
    · rw [if_neg hs]
      intro c hcm
      simp at hcm
  · rw [if_neg hc]
    intro c hcm
    exact (List.dropWhile_sublist _).subset (List.drop_subset 1 _ hcm)

theorem urlparse_eq (url ds : List Char) :
    urlparse url ds =
      if (urlsplit url ds).scheme ∈ uses_params
          ∧ (urlsplit url ds).path.contains ';' then
        ⟨(urlsplit url ds).scheme, (urlsplit url ds).netloc,
         (splitparams (urlsplit url ds).path).1,
         (splitparams (urlsplit url ds).path).2,
         (urlsplit url ds).query, (urlsplit url ds).fragment⟩
      else
        ⟨(urlsplit url ds).scheme, (urlsplit url ds).netloc,
         (urlsplit url ds).path, [],
         (urlsplit url ds).query, (urlsplit url ds).fragment⟩ := rfl

theorem urlparse_scheme (url ds : List Char) :
    (urlparse url ds).scheme = (urlsplit url ds).scheme := by
  rw [urlparse_eq]
  split <;> rfl

theorem urlparse_netloc (url ds : List Char) :
    (urlparse url ds).netloc = (urlsplit url ds).netloc := by
  rw [urlparse_eq]
  split <;> rfl

theorem urlparse_query (url ds : List Char) :
    (urlparse url ds).query = (urlsplit url ds).query := by
  rw [urlparse_eq]
  split <;> rfl

theorem urlparse_fragment (url ds : List Char) :
    (urlparse url ds).fragment = (urlsplit url ds).fragment := by
  rw [urlparse_eq]
  split <;> rfl

theorem urlparse_path_subset_split (url ds : List Char) :
    ∀ c ∈ (urlparse url ds).path, c ∈ (urlsplit url ds).path := by
  rw [urlparse_eq]
  split
  · exact (splitparams_fst_facts _).1
  · exact fun c hc => hc

theorem urlparse_params_subset_split (url ds : List Char) :
    ∀ c ∈ (urlparse url ds).params, c ∈ (urlsplit url ds).path := by
  rw [urlparse_eq]
  split
  · exact splitparams_snd_subset _
  · intro c hc
    simp at hc

theorem urlparse_path_facts (url ds : List Char) :
    ('#' ∉ (urlparse url ds).path) ∧ ('?' ∉ (urlparse url ds).path)
    ∧ (∀ c ∈ (urlparse url ds).path, c ∈ removeTabCrLf (lstripC0 url))
    ∧ ((urlparse url ds).netloc ≠ [] →
        (urlparse url ds).path = [] ∨ (urlparse url ds).path.take 1 = ['/'])
    ∧ ((urlsplit url ds).scheme ∈ uses_params →
        ';' ∉ lastSegment (urlparse url ds).path) := by
  refine ⟨?_, ?_, ?_, ?_, ?_⟩
  · intro hc
    exact urlsplit_path_no_hash url ds (urlparse_path_subset_split url ds _ hc)
  · intro hc
    exact urlsplit_path_no_question url ds (urlparse_path_subset_split url ds _ hc)
  · intro c hc
    exact urlsplit_path_subset url ds c (urlparse_path_subset_split url ds c hc)
  · rw [urlparse_eq]
    by_cases h : (urlsplit url ds).scheme ∈ uses_params
        ∧ (urlsplit url ds).path.contains ';'
    · rw [if_pos h]
      intro hn
      rcases urlsplit_path_shape url ds hn with h0 | h0
      · left
        rw [h0]
        rfl
      · right
        exact (splitparams_fst_facts _).2.2 h0
    · rw [if_neg h]
      exact urlsplit_path_shape url ds
  · intro hup
    rw [urlparse_eq]
    by_cases h : (urlsplit url ds).scheme ∈ uses_params
        ∧ (urlsplit url ds).path.contains ';'
    · rw [if_pos h]
      exact (splitparams_fst_facts _).2.1
    · rw [if_neg h]
      intro hmem
      have hsemi : ';' ∈ (urlsplit url ds).path := lastSegment_subset _ _ hmem
      exact h ⟨hup, by simpa using hsemi⟩

/-! ### Parsing an already-extracted path with an http or https default scheme -/

theorem take1_cons {l : List Char} {a : Char} (h : l.take 1 = [a]) :
    ∃ t, l = a :: t := by
  cases l with
  | nil => simp at h
  | cons x xs =>
    refine ⟨xs, ?_⟩
    have : x = a := by simpa using h
    rw [this]

theorem schemeSplit_cons_slash (t : List Char) : schemeSplit ('/' :: t) = none := by
  unfold schemeSplit
  by_cases h : (('/' :: t).takeWhile (fun c => decide (c ≠ ':'))).length
      = ('/' :: t).length
  · rw [if_pos h]
  · rw [if_neg h, if_neg]
    intro hcon
    have hpre : ('/' :: t).takeWhile (fun c => decide (c ≠ ':'))
        = '/' :: t.takeWhile (fun c => decide (c ≠ ':')) :=
      List.takeWhile_cons_of_pos (by decide)
    have := hcon.2.1
    rw [hpre] at this
    simp at this

theorem splitFrag_noop (w : List Char) (h : '#' ∉ w) : splitFrag w = (w, []) := by
  unfold splitFrag
  rw [if_neg]
  simpa using h

theorem splitQuery_noop (w : List Char) (h : '?' ∉ w) : splitQuery w = (w, []) := by
  unfold splitQuery
  rw [if_neg]
  simpa using h

theorem schemePair_slash (s p : List Char)
    (hs : s = "http".toList ∨ s = "https".toList) (hp1 : p.take 1 = ['/'])
    (ht : ∀ c ∈ p, ¬(c = '\t' ∨ c = '\r' ∨ c = '\n')) :
    schemePair p s = (s, p) := by
  obtain ⟨t, rfl⟩ := take1_cons hp1
  have hstrip : removeTabCrLf (lstripC0 ('/' :: t)) = '/' :: t := by
    unfold lstripC0
    rw [List.dropWhile_cons_of_neg (by decide)]
    exact List.filter_eq_self.mpr (by intro a ha; simpa using ht a ha)
  unfold schemePair
  rw [hstrip, schemeSplit_cons_slash]
  rcases hs with rfl | rfl <;> rfl

theorem urlsplit_of_clean_path (s p : List Char)
    (hs : s = "http".toList ∨ s = "https".toList) (hp1 : p.take 1 = ['/'])
    (hq : '?' ∉ p) (hh : '#' ∉ p)
    (ht : ∀ c ∈ p, ¬(c = '\t' ∨ c = '\r' ∨ c = '\n')) :
    urlsplit p s = ⟨s, (netlocStep p).1, (netlocStep p).2, [], []⟩ := by
  rw [urlsplit_eq, schemePair_slash s p hs hp1 ht]
  have hfr : splitFrag (netlocStep p).2 = ((netlocStep p).2, []) :=
    splitFrag_noop _ (fun hc => hh (netlocStep_snd_subset p '#' hc))
  have hqr : splitQuery (netlocStep p).2 = ((netlocStep p).2, []) :=
    splitQuery_noop _ (fun hc => hq (netlocStep_snd_subset p '?' hc))
  rw [hfr]
  rw [hqr]

theorem urlparse_pathonly (s p : List Char)
    (hs : s = "http".toList ∨ s = "https".toList)
    (hp1 : p.take 1 = ['/']) (hp2 : p.take 2 ≠ ['/', '/'])
    (hq : '?' ∉ p) (hh : '#' ∉ p)
    (ht : ∀ c ∈ p, ¬(c = '\t' ∨ c = '\r' ∨ c = '\n'))
    (hsemi : ';' ∉ lastSegment p) :
    urlparse p s = ⟨s, [], p, [], [], []⟩ := by
  have hnet : netlocStep p = ([], p) := by
    unfold netlocStep
    rw [if_neg hp2]
  have hsplit : urlsplit p s = ⟨s, [], p, [], []⟩ := by
    rw [urlsplit_of_clean_path s p hs hp1 hq hh ht, hnet]
  rw [urlparse_eq, hsplit]
  by_cases hc : (s ∈ uses_params ∧ p.contains ';')
  · rw [if_pos hc, splitparams_no_op p hsemi]
  · rw [if_neg hc]

/-! ### Reduction of the canonicalization `urljoin(absolute_url, parsed.path)` -/

theorem accept_ne_nil (u : List Char) (hacc : acceptUrl u) : u ≠ [] := by
  intro h0
  apply hacc.2
  rw [h0]
  rfl

/-- The path resolution performed by `urljoin` on an absolute (`'/'`-led)
path: split on `'/'`, drop `'.'` segments, pop on `'..'`, restore a trailing
slash after a final dot segment, and re-join (empty result becomes `'/'`). -/
def resolvedPath (p : List Char) : List Char :=
  let segments := splitSeg p
  let resolved := resolveLoop [] segments
  let resolved :=
    if segments.getLast? = some ['.'] ∨ segments.getLast? = some ['.', '.'] then
      resolved ++ [[]]
    else resolved
  let joined := joinSeg resolved
  if joined = [] then ['/'] else joined

theorem netlocStep_snd_slash (p : List Char) (hp1 : p.take 1 = ['/'])
    (hq : '?' ∉ p) (hh : '#' ∉ p) :
    (netlocStep p).2 = [] ∨ (netlocStep p).2.take 1 = ['/'] := by
  unfold netlocStep
  by_cases h2 : p.take 2 = ['/', '/']
  · rw [if_pos h2]
    cases hd : (splitnetloc (p.drop 2)).2 with
    | nil => exact Or.inl rfl
    | cons c t =>
      right
      have hcp : c ∈ p := by
        have h1 : c ∈ (splitnetloc (p.drop 2)).2 := by
          rw [hd]
          exact List.mem_cons_self c t
        unfold splitnetloc at h1
        exact (List.drop_sublist 2 p).subset ((List.dropWhile_sublist _).subset h1)
      have hfalse := dropWhile_head_false _ _ _ _ hd
      have hcval : c = '/' ∨ c = '?' ∨ c = '#' := by
        by_contra hcon
        push_neg at hcon
        simp [hcon.1, hcon.2.1, hcon.2.2] at hfalse
      rcases hcval with rfl | rfl | rfl
      · rfl
      · exact absurd hcp hq
      · exact absurd hcp hh
  · rw [if_neg h2]
    exact Or.inr hp1

set_option maxHeartbeats 2000000 in
theorem urljoin_clean_reduction (u : List Char) (hacc : acceptUrl u)
    (hp : (parseAbs u).path ≠ []) :
    cleanUrl u =
      (let s := (parseAbs u).scheme
       let p := (parseAbs u).path
       let r := urlparse p s
       if r.netloc ≠ [] then
         urlunparse s r.netloc r.path r.params r.query r.fragment
       else if r.path = [] ∧ r.params = [] then
         urlunparse s (parseAbs u).netloc p (parseAbs u).params
           (if r.query = [] then (parseAbs u).query else r.query) r.fragment
       else
         urlunparse s (parseAbs u).netloc (resolvedPath r.path) r.params
           r.query r.fragment) := by
  have hu := accept_ne_nil u hacc
  have hs : (parseAbs u).scheme = "http".toList ∨ (parseAbs u).scheme = "https".toList :=
    hacc.1
  have hfacts := urlparse_path_facts u []
  have hp1 : (parseAbs u).path.take 1 = ['/'] := by
    rcases hfacts.2.2.2.1 hacc.2 with h0 | h0
    · exact absurd h0 hp
    · exact h0
  have htab : ∀ c ∈ (parseAbs u).path, ¬(c = '\t' ∨ c = '\r' ∨ c = '\n') := by
    intro c hc
    have := hfacts.2.2.1 c hc
    have := List.of_mem_filter this
    simpa using this
  have hq : '?' ∉ (parseAbs u).path := hfacts.2.1
  have hh : '#' ∉ (parseAbs u).path := hfacts.1
  have hsplitp : urlsplit (parseAbs u).path (parseAbs u).scheme =
      ⟨(parseAbs u).scheme, (netlocStep (parseAbs u).path).1,
       (netlocStep (parseAbs u).path).2, [], []⟩ :=
    urlsplit_of_clean_path _ _ hs hp1 hq hh htab
  have hrs : (urlparse (parseAbs u).path (parseAbs u).scheme).scheme
      = (parseAbs u).scheme := by
    rw [urlparse_scheme, hsplitp]
  -- shape of the path component of the inner parse
  have hrshape : (urlparse (parseAbs u).path (parseAbs u).scheme).path = []
      ∨ (urlparse (parseAbs u).path (parseAbs u).scheme).path.take 1 = ['/'] := by
    rw [urlparse_eq, hsplitp]
    rcases netlocStep_snd_slash (parseAbs u).path hp1 hq hh with h0 | h0
    · left
      split
      · rw [h0]
        rfl
      · exact h0
    · split
      · right
        exact (splitparams_fst_facts _).2.2 h0
      · right
        exact h0
  have hrpe : (urlparse (parseAbs u).path (parseAbs u).scheme).path = [] →
      (urlparse (parseAbs u).path (parseAbs u).scheme).params = [] := by
    rw [urlparse_eq, hsplitp]
    intro h0
    by_cases hcond : (parseAbs u).scheme ∈ uses_params
        ∧ (netlocStep (parseAbs u).path).2.contains ';'
    · rw [if_pos hcond] at h0 ⊢
      rcases netlocStep_snd_slash (parseAbs u).path hp1 hq hh with hz | hz
      · exfalso
        rw [hz] at hcond
        simp at hcond
      · exfalso
        have hfst := (splitparams_fst_facts (netlocStep (parseAbs u).path).2).2.2 hz
        have h0' : (splitparams (netlocStep (parseAbs u).path).2).1 = [] := h0
        rw [h0'] at hfst
        simp at hfst
    · rw [if_neg hcond]
  have hrel : (parseAbs u).scheme ∈ uses_relative := by
    rcases hs with h0 | h0 <;> rw [h0] <;> decide
  have hnet : (parseAbs u).scheme ∈ uses_netloc := by
    rcases hs with h0 | h0 <;> rw [h0] <;> decide
  show urljoin u (parseAbs u).path = _
  unfold urljoin
  rw [if_neg hu, if_neg hp]
  have hbase : urlparse u [] = parseAbs u := rfl
  rw [hbase]
  rw [if_neg (by
    push_neg
    constructor
    · rw [hrs]
    · rw [hrs]
      exact hrel)]
  by_cases hn : (urlparse (parseAbs u).path (parseAbs u).scheme).netloc ≠ []
  · rw [if_pos (by rw [hrs]; exact ⟨hnet, hn⟩)]
    simp only [if_pos hn]
    rw [hrs]
  · rw [if_neg (by rw [hrs]; intro hcon; exact hn hcon.2)]
    simp only [if_neg hn]
    rw [hrs, if_pos hnet]
    by_cases hpz : (urlparse (parseAbs u).path (parseAbs u).scheme).path = []
        ∧ (urlparse (parseAbs u).path (parseAbs u).scheme).params = []
    · rw [if_pos hpz]
      simp only [if_pos hpz]
    · rw [if_neg hpz]
      simp only [if_neg hpz]
      have hrp1 : (urlparse (parseAbs u).path (parseAbs u).scheme).path.take 1
          = ['/'] := by
        rcases hrshape with h0 | h0
        · exact absurd ⟨h0, hrpe h0⟩ hpz
        · exact h0
      rw [if_pos hrp1]
      rfl

/-! ### Character tracking through `urlunsplit` / `urlunparse` -/

theorem mem_strip_imp (url : List Char) (c : Char)
    (h : c ∈ removeTabCrLf (lstripC0 url)) : c ∈ url := by
  unfold removeTabCrLf lstripC0 at h
  exact (List.dropWhile_sublist _).subset ((List.filter_sublist _).subset h)

theorem urlsplit_query_of_no_question (url ds : List Char) (h : '?' ∉ url) :
    (urlsplit url ds).query = [] := by
  rw [urlsplit_eq]
  have hX : '?' ∉ (splitFrag (netlocStep (schemePair url ds).2).2).1 := by
    intro hc
    exact h (mem_strip_imp url '?' (schemePair_snd_subset url ds _
      (netlocStep_snd_subset _ _ (splitFrag_fst_subset _ _ hc))))
  rw [splitQuery_noop _ hX]

theorem urlsplit_fragment_of_no_hash (url ds : List Char) (h : '#' ∉ url) :
    (urlsplit url ds).fragment = [] := by
  rw [urlsplit_eq]
  have hX : '#' ∉ (netlocStep (schemePair url ds).2).2 := by
    intro hc
    exact h (mem_strip_imp url '#' (schemePair_snd_subset url ds _
      (netlocStep_snd_subset _ _ hc)))
  rw [splitFrag_noop _ hX]

set_option maxHeartbeats 1600000 in
theorem mem_urlunsplit (s n u q f : List Char) (c : Char)
    (hc : c ∈ urlunsplit s n u q f) :
    (c ∈ s ∨ c ∈ n ∨ c ∈ u ∨ c = ':' ∨ c = '/')
    ∨ (q ≠ [] ∧ (c ∈ q ∨ c = '?'))
    ∨ (f ≠ [] ∧ (c ∈ f ∨ c = '#')) := by
  unfold urlunsplit at hc
  repeat' split at hc
  all_goals simp only [List.mem_append, List.mem_cons] at hc
  all_goals tauto

theorem mem_urlunparse (s n u par q f : List Char) (c : Char)
    (hc : c ∈ urlunparse s n u par q f) :
    (c ∈ s ∨ c ∈ n ∨ c ∈ u ∨ c ∈ par ∨ c = ':' ∨ c = '/' ∨ c = ';')
    ∨ (q ≠ [] ∧ (c ∈ q ∨ c = '?'))
    ∨ (f ≠ [] ∧ (c ∈ f ∨ c = '#')) := by
  unfold urlunparse at hc
  by_cases hp : par ≠ []
  · rw [if_pos hp] at hc
    rcases mem_urlunsplit _ _ _ _ _ _ hc with h | h | h
    · rcases h with h | h | h | h | h
      · exact Or.inl (Or.inl h)
      · exact Or.inl (Or.inr (Or.inl h))
      · simp only [List.mem_append, List.mem_cons] at h
        tauto
      · tauto
      · tauto
    · tauto
    · tauto
  · rw [if_neg hp] at hc
    rcases mem_urlunsplit _ _ _ _ _ _ hc with h | h | h
    · tauto
    · tauto
    · tauto

/-! ### Characters of the resolved path -/

theorem splitSeg_ne_nil (l : List Char) : splitSeg l ≠ [] := by
  cases l with
  | nil => simp [splitSeg]
  | cons c rest =>
    unfold splitSeg
    cases splitSeg rest with
    | nil => simp
    | cons s ss =>
      by_cases h : c = '/'
      · simp [h]
      · simp [h]

theorem mem_splitSeg_subset (l : List Char) :
    ∀ seg ∈ splitSeg l, ∀ c ∈ seg, c ∈ l := by
  induction l with
  | nil =>
    intro seg hseg c hc
    simp [splitSeg] at hseg
    rw [hseg] at hc
    simp at hc
  | cons a rest ih =>
    intro seg hseg c hc
    unfold splitSeg at hseg
    cases hsp : splitSeg rest with
    | nil => exact absurd hsp (splitSeg_ne_nil rest)
    | cons s ss =>
      rw [hsp] at hseg
      by_cases ha : a = '/'
      · simp only [ha, if_pos rfl] at hseg
        rcases List.mem_cons.mp hseg with rfl | hseg2
        · simp at hc
        · right
          exact ih seg (hsp ▸ hseg2) c hc
      · simp only [if_neg ha] at hseg
        rcases List.mem_cons.mp hseg with rfl | hseg2
        · rcases List.mem_cons.mp hc with rfl | hc2
          · exact List.mem_cons_self _ _
          · right
            exact ih s (hsp ▸ List.mem_cons_self s ss) c hc2
        · right
          exact ih seg (hsp ▸ List.mem_cons.mpr (Or.inr hseg2)) c hc

theorem mem_joinSeg (segs : List (List Char)) (c : Char) :
    c ∈ joinSeg segs → c = '/' ∨ ∃ s ∈ segs, c ∈ s := by
  induction segs with
  | nil =>
    intro hc
    simp [joinSeg] at hc
  | cons s ss ih =>
    intro hc
    cases ss with
    | nil =>
      simp only [joinSeg] at hc
      exact Or.inr ⟨s, List.mem_cons_self _ _, hc⟩
    | cons s2 ss2 =>
      simp only [joinSeg, List.mem_append, List.mem_cons] at hc
      rcases hc with hc | hc | hc
      · exact Or.inr ⟨s, List.mem_cons_self _ _, hc⟩
      · exact Or.inl hc
      · rcases ih hc with h | ⟨t, ht, hct⟩
        · exact Or.inl h
        · exact Or.inr ⟨t, List.mem_cons.mpr (Or.inr ht), hct⟩

theorem resolveLoop_mem (l : List (List Char)) :
    ∀ (acc : List (List Char)), ∀ x ∈ resolveLoop acc l, x ∈ acc ∨ x ∈ l := by
  induction l with
  | nil =>
    intro acc x hx
    exact Or.inl hx
  | cons seg rest ih =>
    intro acc x hx
    unfold resolveLoop at hx
    by_cases h1 : seg = ['.', '.']
    · rw [if_pos h1] at hx
      rcases ih acc.dropLast x hx with h | h
      · exact Or.inl (List.dropLast_subset acc h)
      · exact Or.inr (List.mem_cons.mpr (Or.inr h))
    · rw [if_neg h1] at hx
      by_cases h2 : seg = ['.']
      · rw [if_pos h2] at hx
        rcases ih acc x hx with h | h
        · exact Or.inl h
        · exact Or.inr (List.mem_cons.mpr (Or.inr h))
      · rw [if_neg h2] at hx
        rcases ih (acc ++ [seg]) x hx with h | h
        · rcases List.mem_append.mp h with h | h
          · exact Or.inl h
          · exact Or.inr (List.mem_cons.mpr (Or.inl (List.mem_singleton.mp h)))
        · exact Or.inr (List.mem_cons.mpr (Or.inr h))

theorem resolvedPath_subset (P : List Char) :
    ∀ c ∈ resolvedPath P, c ∈ P ∨ c = '/' := by
  intro c hc
  unfold resolvedPath at hc
  by_cases hj : joinSeg
      (if (splitSeg P).getLast? = some ['.'] ∨ (splitSeg P).getLast? = some ['.', '.'] then
        resolveLoop [] (splitSeg P) ++ [[]]
      else resolveLoop [] (splitSeg P)) = []
  · simp only [hj, if_pos rfl] at hc
    right
    simpa using hc
  · simp only [if_neg hj] at hc
    rcases mem_joinSeg _ c hc with h | ⟨seg, hseg, hcseg⟩
    · exact Or.inr h
    · have hseg2 : seg ∈ resolveLoop [] (splitSeg P) ∨ seg = [] := by
        by_cases hd : (splitSeg P).getLast? = some ['.']
            ∨ (splitSeg P).getLast? = some ['.', '.']
        · rw [if_pos hd] at hseg
          rcases List.mem_append.mp hseg with h | h
          · exact Or.inl h
          · exact Or.inr (List.mem_singleton.mp h)
        · rw [if_neg hd] at hseg
          exact Or.inl hseg
      rcases hseg2 with h | rfl
      · rcases resolveLoop_mem _ [] seg h with h0 | h0
        · simp at h0
        · exact Or.inl (mem_splitSeg_subset P seg h0 c hcseg)
      · simp at hcseg

/-! ### Derived facts about an accepted URL's parsed path -/

theorem accept_facts (u : List Char) (hacc : acceptUrl u)
    (hne : (parseAbs u).path ≠ []) :
    (parseAbs u).path.take 1 = ['/']
    ∧ '?' ∉ (parseAbs u).path ∧ '#' ∉ (parseAbs u).path
    ∧ (∀ c ∈ (parseAbs u).path, ¬(c = '\t' ∨ c = '\r' ∨ c = '\n'))
    ∧ ';' ∉ lastSegment (parseAbs u).path := by
  have hfacts := urlparse_path_facts u []
  refine ⟨?_, hfacts.2.1, hfacts.1, ?_, ?_⟩
  · rcases hfacts.2.2.2.1 hacc.2 with h0 | h0
    · exact absurd h0 hne
    · exact h0
  · intro c hc
    have := List.of_mem_filter (hfacts.2.2.1 c hc)
    simpa using this
  · apply hfacts.2.2.2.2
    have hsch : (urlsplit u []).scheme = (parseAbs u).scheme :=
      (urlparse_scheme u []).symm
    rw [hsch]
    rcases hacc.1 with h0 | h0 <;> rw [h0] <;> decide

theorem inner_split_eq (u : List Char) (hacc : acceptUrl u)
    (hne : (parseAbs u).path ≠ []) :
    urlsplit (parseAbs u).path (parseAbs u).scheme =
      ⟨(parseAbs u).scheme, (netlocStep (parseAbs u).path).1,
       (netlocStep (parseAbs u).path).2, [], []⟩ := by
  obtain ⟨h1, hq, hh, ht, _⟩ := accept_facts u hacc hne
  exact urlsplit_of_clean_path _ _ hacc.1 h1 hq hh ht

set_option maxHeartbeats 1600000 in
theorem inner_path_empty (u : List Char) (hacc : acceptUrl u)
    (hne : (parseAbs u).path ≠ [])
    (hp0 : (urlparse (parseAbs u).path (parseAbs u).scheme).path = []) :
    (netlocStep (parseAbs u).path).2 = [] := by
  obtain ⟨h1, hq, hh, _, _⟩ := accept_facts u hacc hne
  have hsplitp := inner_split_eq u hacc hne
  rcases netlocStep_snd_slash (parseAbs u).path h1 hq hh with h0 | h0
  · exact h0
  · exfalso
    rw [urlparse_eq, hsplitp] at hp0
    by_cases hcond : (parseAbs u).scheme ∈ uses_params
        ∧ (netlocStep (parseAbs u).path).2.contains ';'
    · rw [if_pos hcond] at hp0
      have hfst := (splitparams_fst_facts (netlocStep (parseAbs u).path).2).2.2 h0
      have hp0' : (splitparams (netlocStep (parseAbs u).path).2).1 = [] := hp0
      rw [hp0'] at hfst
      simp at hfst
    · rw [if_neg hcond] at hp0
      have hp0' : (netlocStep (parseAbs u).path).2 = [] := hp0
      rw [hp0'] at h0
      simp at h0

theorem inner_both_empty (u : List Char) (hacc : acceptUrl u)
    (hne : (parseAbs u).path ≠ [])
    (hn0 : (urlparse (parseAbs u).path (parseAbs u).scheme).netloc = [])
    (hp0 : (urlparse (parseAbs u).path (parseAbs u).scheme).path = []) :
    (parseAbs u).path = ['/', '/'] := by
  have hsplitp := inner_split_eq u hacc hne
  have hn0' : (netlocStep (parseAbs u).path).1 = [] := by
    have h := urlparse_netloc (parseAbs u).path (parseAbs u).scheme
    rw [hsplitp] at h
    have h2 : (netlocStep (parseAbs u).path).1
        = (urlparse (parseAbs u).path (parseAbs u).scheme).netloc := h.symm
    rw [h2]
    exact hn0
  have hp0' := inner_path_empty u hacc hne hp0
  unfold netlocStep at hn0' hp0'
  by_cases h2 : (parseAbs u).path.take 2 = ['/', '/']
  · rw [if_pos h2] at hn0' hp0'
    have htw : List.takeWhile (fun c => decide ¬(c = '/' ∨ c = '?' ∨ c = '#'))
        ((parseAbs u).path.drop 2) = [] := hn0'
    have hdw : List.dropWhile (fun c => decide ¬(c = '/' ∨ c = '?' ∨ c = '#'))
        ((parseAbs u).path.drop 2) = [] := hp0'
    have hdrop : (parseAbs u).path.drop 2 = [] := by
      have hj := List.takeWhile_append_dropWhile
        (p := fun c => decide (¬(c = '/' ∨ c = '?' ∨ c = '#')))
        (l := (parseAbs u).path.drop 2)
      rw [htw, hdw] at hj
      simpa using hj.symm
    have hjoin := List.take_append_drop 2 (parseAbs u).path
    rw [hdrop, h2] at hjoin
    simpa using hjoin.symm
  · rw [if_neg h2] at hp0'
    exact absurd hp0' hne

/-! ### No query survives canonicalization (except for the `//` path) -/

set_option maxHeartbeats 1600000 in
theorem clean_no_question (u : List Char) (hacc : acceptUrl u)
    (hne : (parseAbs u).path ≠ []) (hds : (parseAbs u).path ≠ ['/', '/']) :
    '?' ∉ cleanUrl u := by
  obtain ⟨h1, hq, hh, ht, hsemi⟩ := accept_facts u hacc hne
  rw [urljoin_clean_reduction u hacc hne]
  dsimp only
  intro hc
  have hsq : '?' ∉ (parseAbs u).scheme := by
    rcases hacc.1 with h0 | h0 <;> rw [h0] <;> decide
  have hnq : '?' ∉ (parseAbs u).netloc := by
    intro hm
    have hm2 : '?' ∈ (urlsplit u []).netloc := by
      have h2 : (parseAbs u).netloc = (urlsplit u []).netloc := urlparse_netloc u []
      rw [← h2]
      exact hm
    have h3 := urlsplit_netloc_chars u [] '?' hm2
    simp at h3
  have hRn : ∀ c ∈ (urlparse (parseAbs u).path (parseAbs u).scheme).netloc,
      c ∈ (parseAbs u).path := by
    intro c hcm
    have h2 : c ∈ (urlsplit (parseAbs u).path (parseAbs u).scheme).netloc := by
      have h3 := urlparse_netloc (parseAbs u).path (parseAbs u).scheme
      rw [← h3]
      exact hcm
    exact mem_strip_imp _ c (urlsplit_netloc_subset _ _ c h2)
  have hRp : ∀ c ∈ (urlparse (parseAbs u).path (parseAbs u).scheme).path,
      c ∈ (parseAbs u).path := by
    intro c hcm
    exact mem_strip_imp _ c (urlsplit_path_subset _ _ c
      (urlparse_path_subset_split _ _ c hcm))
  have hRpar : ∀ c ∈ (urlparse (parseAbs u).path (parseAbs u).scheme).params,
      c ∈ (parseAbs u).path := by
    intro c hcm
    exact mem_strip_imp _ c (urlsplit_path_subset _ _ c
      (urlparse_params_subset_split _ _ c hcm))
  have hRq : (urlparse (parseAbs u).path (parseAbs u).scheme).query = [] := by
    rw [urlparse_query]
    exact urlsplit_query_of_no_question _ _ hq
  have hRf : (urlparse (parseAbs u).path (parseAbs u).scheme).fragment = [] := by
    rw [urlparse_fragment]
    exact urlsplit_fragment_of_no_hash _ _ hh
  split at hc
  · rcases mem_urlunparse _ _ _ _ _ _ _ hc with h | h | h
    · rcases h with h | h | h | h | h | h | h
      · exact hsq h
      · exact hq (hRn _ h)
      · exact hq (hRp _ h)
      · exact hq (hRpar _ h)
      · simp at h
      · simp at h
      · simp at h
    · exact h.1 hRq
    · exact h.1 hRf
  · split at hc
    · rename_i hnetneg hboth
      push_neg at hnetneg
      exact hds (inner_both_empty u hacc hne hnetneg hboth.1)
    · rcases mem_urlunparse _ _ _ _ _ _ _ hc with h | h | h
      · rcases h with h | h | h | h | h | h | h
        · exact hsq h
        · exact hnq h
        · rcases resolvedPath_subset _ _ h with h2 | h2
          · exact hq (hRp _ h2)
          · simp at h2
        · exact hq (hRpar _ h)
        · simp at h
        · simp at h
        · simp at h
      · exact h.1 hRq
      · exact h.1 hRf

set_option maxHeartbeats 1600000 in
theorem clean_determined_by_scheme_netloc_path (u u₂ : List Char)
    (hacc : acceptUrl u) (hacc₂ : acceptUrl u₂)
    (hne : (parseAbs u).path ≠ []) (hds : (parseAbs u).path ≠ ['/', '/'])
    (hsch : (parseAbs u₂).scheme = (parseAbs u).scheme)
    (hnet : (parseAbs u₂).netloc = (parseAbs u).netloc)
    (hpath : (parseAbs u₂).path = (parseAbs u).path) :
    cleanUrl u₂ = cleanUrl u := by
  have hne₂ : (parseAbs u₂).path ≠ [] := by
    rw [hpath]
    exact hne
  rw [urljoin_clean_reduction u hacc hne, urljoin_clean_reduction u₂ hacc₂ hne₂]
  dsimp only
  rw [hsch, hnet, hpath]
  by_cases hn : (urlparse (parseAbs u).path (parseAbs u).scheme).netloc ≠ []
  · rw [if_pos hn, if_pos hn]
  · rw [if_neg hn, if_neg hn]
    have hnot : ¬((urlparse (parseAbs u).path (parseAbs u).scheme).path = []
        ∧ (urlparse (parseAbs u).path (parseAbs u).scheme).params = []) := by
      intro hcon
      push_neg at hn
      exact hds (inner_both_empty u hacc hne hn hcon.1)
    rw [if_neg hnot, if_neg hnot]

/-- C10 amended: for every accepted URL whose parsed path is non-empty and
not exactly `//`, the canonical URL contains no `'?'` at all, its re-parse
has an empty query component, and any two accepted URLs sharing the same
scheme, netloc and parsed path (in particular, raw hrefs differing only in
their query strings) canonicalize to the same key.  The exception `//` is
real: see `c10_query_survives_on_doubleslash_path`. -/
theorem c10_query_discarded_except_doubleslash (u : List Char)
    (hacc : acceptUrl u) (hne : (parseAbs u).path ≠ [])
    (hds : (parseAbs u).path ≠ ['/', '/']) :
    ('?' ∉ cleanUrl u) ∧ (parseAbs (cleanUrl u)).query = []
    ∧ ∀ u₂, acceptUrl u₂ → (parseAbs u₂).scheme = (parseAbs u).scheme →
        (parseAbs u₂).netloc = (parseAbs u).netloc →
        (parseAbs u₂).path = (parseAbs u).path → cleanUrl u₂ = cleanUrl u := by
  have hnoq := clean_no_question u hacc hne hds
  refine ⟨hnoq, ?_, ?_⟩
  · show (urlparse (cleanUrl u) []).query = []
    rw [urlparse_query]
    exact urlsplit_query_of_no_question _ _ hnoq
  · intro u₂ hacc₂ hsch hnet hpath
    exact clean_determined_by_scheme_netloc_path u u₂ hacc hacc₂ hne hds hsch
      hnet hpath

/-- Witness for `c10_query_discarded_except_doubleslash` at a concrete URL
with a query string. -/
theorem c10_query_discarded_witness :
    ('?' ∉ cleanUrl "http://example.com/a?x=1".toList)
    ∧ (parseAbs (cleanUrl "http://example.com/a?x=1".toList)).query = []
    ∧ cleanUrl "http://example.com/a?x=2&y=3".toList
        = cleanUrl "http://example.com/a?x=1".toList := by
  have h := c10_query_discarded_except_doubleslash "http://example.com/a?x=1".toList
    (by decide) (by decide) (by decide)
  exact ⟨h.1, h.2.1, h.2.2 "http://example.com/a?x=2&y=3".toList (by decide)
    (by decide) (by decide) (by decide)⟩

/-! ### Paths on which `urljoin` resolution is the identity -/

/-- A parsed path on which the canonicalization is provably idempotent: empty,
or starting with a single `'/'`, with no `'.'` or `'..'` segment and no empty
segment other than a trailing one.  (Outside this set idempotence can fail:
see `c8_clean_not_idempotent`.) -/
def goodPath (p : List Char) : Prop :=
  p = [] ∨
  (p.take 1 = ['/'] ∧ p.take 2 ≠ ['/', '/']
   ∧ (∀ seg ∈ ((splitSeg p).tail).dropLast, seg ≠ [] ∧ seg ≠ ['.'] ∧ seg ≠ ['.', '.'])
   ∧ (splitSeg p).getLast? ≠ some ['.'] ∧ (splitSeg p).getLast? ≠ some ['.', '.'])

instance (p : List Char) : Decidable (goodPath p) := by
  unfold goodPath
  infer_instance

theorem splitSeg_cons_slash_eq (l : List Char) :
    splitSeg ('/' :: l) = [] :: splitSeg l := by
  conv_lhs => rw [splitSeg]
  cases hsp : splitSeg l with
  | nil => exact absurd hsp (splitSeg_ne_nil l)
  | cons s ss => simp

theorem joinSeg_cons_cons (c : Char) (s : List Char) (ss : List (List Char)) :
    joinSeg ((c :: s) :: ss) = c :: joinSeg (s :: ss) := by
  cases ss with
  | nil => rfl
  | cons s2 ss2 => rfl

theorem joinSeg_splitSeg (l : List Char) : joinSeg (splitSeg l) = l := by
  induction l with
  | nil => rfl
  | cons c rest ih =>
    unfold splitSeg
    cases hsp : splitSeg rest with
    | nil => exact absurd hsp (splitSeg_ne_nil rest)
    | cons s ss =>
      by_cases hc : c = '/'
      · simp only [hc, if_pos rfl]
        show '/' :: joinSeg (s :: ss) = '/' :: rest
        rw [← hsp, ih]
      · simp only [if_neg hc]
        rw [joinSeg_cons_cons, ← hsp, ih]

theorem resolveLoop_nodots (l : List (List Char))
    (h : ∀ seg ∈ l, seg ≠ ['.'] ∧ seg ≠ ['.', '.']) :
    ∀ acc, resolveLoop acc l = acc ++ l := by
  induction l with
  | nil =>
    intro acc
    simp [resolveLoop]
  | cons seg rest ih =>
    intro acc
    unfold resolveLoop
    have hseg := h seg (List.mem_cons_self _ _)
    rw [if_neg hseg.2, if_neg hseg.1]
    rw [ih (fun s hs => h s (List.mem_cons.mpr (Or.inr hs))) (acc ++ [seg])]
    simp

theorem getLast?_cons_of_ne_nil {α : Type} (a : α) (l : List α) (h : l ≠ []) :
    (a :: l).getLast? = l.getLast? := by
  cases l with
  | nil => exact absurd rfl h
  | cons b t => rfl

theorem goodPath_segments_nondot (p : List Char) (h1 : p.take 1 = ['/'])
    (hmid : ∀ seg ∈ ((splitSeg p).tail).dropLast,
      seg ≠ [] ∧ seg ≠ ['.'] ∧ seg ≠ ['.', '.'])
    (hl1 : (splitSeg p).getLast? ≠ some ['.'])
    (hl2 : (splitSeg p).getLast? ≠ some ['.', '.']) :
    ∀ seg ∈ splitSeg p, seg ≠ ['.'] ∧ seg ≠ ['.', '.'] := by
  obtain ⟨t, rfl⟩ := take1_cons h1
  rw [splitSeg_cons_slash_eq] at *
  intro seg hseg
  rcases List.mem_cons.mp hseg with rfl | hseg2
  · exact ⟨by decide, by decide⟩
  · rcases mem_dropLast_or_getLast? _ seg hseg2 with hd | hd
    · have := hmid seg (by simpa using hd)
      exact ⟨this.2.1, this.2.2⟩
    · have hlast : ([] :: splitSeg t).getLast? = some seg := by
        rw [getLast?_cons_of_ne_nil _ _ (splitSeg_ne_nil t)]
        exact hd
      constructor
      · intro hcon
        exact hl1 (by rw [hlast, hcon])
      · intro hcon
        exact hl2 (by rw [hlast, hcon])

theorem resolvedPath_eq_self (p : List Char) (hne : p ≠ [])
    (h1 : p.take 1 = ['/'])
    (hmid : ∀ seg ∈ ((splitSeg p).tail).dropLast,
      seg ≠ [] ∧ seg ≠ ['.'] ∧ seg ≠ ['.', '.'])
    (hl1 : (splitSeg p).getLast? ≠ some ['.'])
    (hl2 : (splitSeg p).getLast? ≠ some ['.', '.']) :
    resolvedPath p = p := by
  unfold resolvedPath
  dsimp only
  have hnodot := goodPath_segments_nondot p h1 hmid hl1 hl2
  rw [resolveLoop_nodots _ hnodot []]
  simp only [List.nil_append]
  have hcond : ¬((splitSeg p).getLast? = some ['.']
      ∨ (splitSeg p).getLast? = some ['.', '.']) := by
    push_neg
    exact ⟨hl1, hl2⟩
  rw [if_neg hcond, joinSeg_splitSeg, if_neg hne]

/-! ### Parsing the rebuilt canonical URL -/

theorem urlunparse_build (s n p : List Char) (hsne : s ≠ []) (hn : n ≠ [])
    (h1 : p.take 1 = ['/']) :
    urlunparse s n p [] [] [] = s ++ ':' :: '/' :: '/' :: (n ++ p) := by
  unfold urlunparse
  rw [if_neg (by simp)]
  unfold urlunsplit
  dsimp only
  have hcnl : n ≠ [] ∨ (s ≠ [] ∧ s ∈ uses_netloc ∧ p.take 2 ≠ ['/', '/']) :=
    Or.inl hn
  have hc2 : ¬(p ≠ [] ∧ p.take 1 ≠ ['/']) := fun hcon => hcon.2 h1
  have hnil : ¬(([] : List Char) ≠ []) := by simp
  rw [if_pos hcnl, if_neg hc2, if_pos hsne, if_neg hnil, if_neg hnil]

theorem urlparse_build (s n p : List Char)
    (hs : s = "http".toList ∨ s = "https".toList)
    (hn : n ≠ []) (hnch : ∀ c ∈ n, ¬(c = '/' ∨ c = '?' ∨ c = '#'))
    (hntab : ∀ c ∈ n, ¬(c = '\t' ∨ c = '\r' ∨ c = '\n'))
    (h1 : p.take 1 = ['/'])
    (hq : '?' ∉ p) (hh : '#' ∉ p)
    (hptab : ∀ c ∈ p, ¬(c = '\t' ∨ c = '\r' ∨ c = '\n'))
    (hsemi : ';' ∉ lastSegment p) :
    urlparse (s ++ ':' :: '/' :: '/' :: (n ++ p)) [] = ⟨s, n, p, [], [], []⟩ := by
  have hstrip : removeTabCrLf (lstripC0 (s ++ ':' :: '/' :: '/' :: (n ++ p)))
      = s ++ ':' :: '/' :: '/' :: (n ++ p) := by
    have hl : lstripC0 (s ++ ':' :: '/' :: '/' :: (n ++ p))
        = s ++ ':' :: '/' :: '/' :: (n ++ p) := by
      rcases hs with rfl | rfl
      · show List.dropWhile _ ('h' :: _) = _
        rw [List.dropWhile_cons_of_neg (by decide)]
        rfl
      · show List.dropWhile _ ('h' :: _) = _
        rw [List.dropWhile_cons_of_neg (by decide)]
        rfl
    rw [hl]
    apply List.filter_eq_self.mpr
    intro a ha
    have ha2 : a ∈ s ∨ a = ':' ∨ a = '/' ∨ a ∈ n ∨ a ∈ p := by
      simp only [List.mem_append, List.mem_cons] at ha
      tauto
    simp only [decide_eq_true_eq]
    rcases ha2 with h | rfl | rfl | h | h
    · rcases hs with rfl | rfl
      · have h2 : a = 'h' ∨ a = 't' ∨ a = 't' ∨ a = 'p' := by simpa using h
        rcases h2 with rfl | rfl | rfl | rfl <;> decide
      · have h2 : a = 'h' ∨ a = 't' ∨ a = 't' ∨ a = 'p' ∨ a = 's' := by simpa using h
        rcases h2 with rfl | rfl | rfl | rfl | rfl <;> decide
    · decide
    · decide
    · exact hntab a h
    · exact hptab a h
  have hpre : (s ++ ':' :: '/' :: '/' :: (n ++ p)).takeWhile
      (fun c => decide (c ≠ ':')) = s := by
    rw [takeWhile_append_all _ s _ (by rcases hs with rfl | rfl <;> decide)]
    rw [List.takeWhile_cons_of_neg (by decide)]
    simp
  have hss : schemeSplit (s ++ ':' :: '/' :: '/' :: (n ++ p))
      = some (s, '/' :: '/' :: (n ++ p)) := by
    unfold schemeSplit
    dsimp only
    rw [hpre]
    rw [if_neg (by
      simp only [List.length_append, List.length_cons]
      omega)]
    rw [if_pos (by
      rcases hs with rfl | rfl
      · exact ⟨by decide, by decide, by decide⟩
      · exact ⟨by decide, by decide, by decide⟩)]
    have hmap : s.map Char.toLower = s := by
      rcases hs with rfl | rfl <;> decide
    have hdrop : (s ++ ':' :: '/' :: '/' :: (n ++ p)).drop (s.length + 1)
        = '/' :: '/' :: (n ++ p) := by
      rw [List.append_cons s ':' ('/' :: '/' :: (n ++ p))]
      exact List.drop_left' (by simp)
    rw [hmap, hdrop]
  have hsp : schemePair (s ++ ':' :: '/' :: '/' :: (n ++ p)) []
      = (s, '/' :: '/' :: (n ++ p)) := by
    unfold schemePair
    rw [hstrip, hss]
  have hnl : netlocStep ('/' :: '/' :: (n ++ p)) = (n, p) := by
    unfold netlocStep
    rw [if_pos (by rfl)]
    unfold splitnetloc
    obtain ⟨t, rfl⟩ := take1_cons h1
    simp only [Prod.mk.injEq]
    constructor
    · show List.takeWhile _ (n ++ '/' :: t) = n
      rw [takeWhile_append_all _ n _ (by
        intro a haa
        simpa using hnch a haa)]
      rw [List.takeWhile_cons_of_neg (by decide)]
      simp
    · show List.dropWhile _ (n ++ '/' :: t) = '/' :: t
      rw [dropWhile_append_all _ n _ (by
        intro a haa
        simpa using hnch a haa)]
      rw [List.dropWhile_cons_of_neg (by decide)]
  have hsplit : urlsplit (s ++ ':' :: '/' :: '/' :: (n ++ p)) []
      = ⟨s, n, p, [], []⟩ := by
    rw [urlsplit_eq, hsp]
    dsimp only
    rw [hnl]
    dsimp only
    rw [splitFrag_noop p hh]
    dsimp only
    rw [splitQuery_noop p hq]
  rw [urlparse_eq, hsplit]
  by_cases hc : s ∈ uses_params ∧ p.contains ';'
  · rw [if_pos hc, splitparams_no_op p hsemi]
  · rw [if_neg hc]

set_option maxHeartbeats 2000000 in
/-- C8 amended: normalization is idempotent on every accepted URL whose
parsed path is empty, or starts with a single `'/'` and contains no `'.'`
or `'..'` segment and no empty segment except a trailing one; moreover the
canonical URL is itself accepted.  The claim fails without this path
restriction: see `c8_clean_not_idempotent`. -/
theorem c8_clean_idempotent_on_good_paths (u : List Char) (hacc : acceptUrl u)
    (hgood : goodPath (parseAbs u).path) :
    acceptUrl (cleanUrl u) ∧ cleanUrl (cleanUrl u) = cleanUrl u := by
  rcases hgood with hpe | ⟨h1, h2, hmid, hl1, hl2⟩
  · have hcu : cleanUrl u = u := by
      unfold cleanUrl
      rw [hpe]
      unfold urljoin
      rw [if_neg (accept_ne_nil u hacc), if_pos rfl]
    constructor
    · rw [hcu]
      exact hacc
    · rw [hcu, hcu]
  · have hne : (parseAbs u).path ≠ [] := by
      obtain ⟨t, hti⟩ := take1_cons h1
      rw [hti]
      simp
    obtain ⟨_, hq, hh, ht, hsemi⟩ := accept_facts u hacc hne
    have hs := hacc.1
    have hnne : (parseAbs u).netloc ≠ [] := hacc.2
    have hpn : (parseAbs u).netloc = (urlsplit u []).netloc := urlparse_netloc u []
    have hnch : ∀ c ∈ (parseAbs u).netloc, ¬(c = '/' ∨ c = '?' ∨ c = '#') := by
      intro c hc
      apply urlsplit_netloc_chars u [] c
      rw [← hpn]
      exact hc
    have hntab : ∀ c ∈ (parseAbs u).netloc, ¬(c = '\t' ∨ c = '\r' ∨ c = '\n') := by
      intro c hc
      have h4 := urlsplit_netloc_subset u [] c (by rw [← hpn]; exact hc)
      have := List.of_mem_filter h4
      simpa using this
    have hr : urlparse (parseAbs u).path (parseAbs u).scheme
        = ⟨(parseAbs u).scheme, [], (parseAbs u).path, [], [], []⟩ :=
      urlparse_pathonly _ _ hs h1 h2 hq hh ht hsemi
    have hsne : (parseAbs u).scheme ≠ [] := by
      rcases hs with h0 | h0 <;> rw [h0] <;> decide
    have hstepA : cleanUrl u = (parseAbs u).scheme ++ ':' :: '/' :: '/' ::
        ((parseAbs u).netloc ++ (parseAbs u).path) := by
      rw [urljoin_clean_reduction u hacc hne]
      dsimp only
      rw [hr]
      dsimp only
      rw [if_neg (by simp)]
      rw [if_neg (fun hcon => hne hcon.1)]
      rw [resolvedPath_eq_self _ hne h1 hmid hl1 hl2]
      exact urlunparse_build _ _ _ hsne hnne h1
    have hstepB : urlparse ((parseAbs u).scheme ++ ':' :: '/' :: '/' ::
        ((parseAbs u).netloc ++ (parseAbs u).path)) []
        = ⟨(parseAbs u).scheme, (parseAbs u).netloc, (parseAbs u).path,
           [], [], []⟩ :=
      urlparse_build _ _ _ hs hnne hnch hntab h1 hq hh ht hsemi
    have hstepB' : parseAbs ((parseAbs u).scheme ++ ':' :: '/' :: '/' ::
        ((parseAbs u).netloc ++ (parseAbs u).path))
        = ⟨(parseAbs u).scheme, (parseAbs u).netloc, (parseAbs u).path,
           [], [], []⟩ := hstepB
    have haccv : acceptUrl (cleanUrl u) := by
      rw [hstepA]
      unfold acceptUrl
      rw [hstepB']
      exact ⟨hs, hnne⟩
    refine ⟨haccv, ?_⟩
    have hcompS : (parseAbs (cleanUrl u)).scheme = (parseAbs u).scheme := by
      rw [hstepA, hstepB']
    have hcompN : (parseAbs (cleanUrl u)).netloc = (parseAbs u).netloc := by
      rw [hstepA, hstepB']
    have hcompP : (parseAbs (cleanUrl u)).path = (parseAbs u).path := by
      rw [hstepA, hstepB']
    have hnev : (parseAbs (cleanUrl u)).path ≠ [] := by
      rw [hcompP]
      exact hne
    rw [urljoin_clean_reduction (cleanUrl u) haccv hnev]
    dsimp only
    rw [hcompS, hcompP, hcompN]
    rw [hr]
    dsimp only
    rw [if_neg (by simp)]
    rw [if_neg (fun hcon => hne hcon.1)]
    rw [resolvedPath_eq_self _ hne h1 hmid hl1 hl2]
    rw [urlunparse_build _ _ _ hsne hnne h1]
    exact hstepA.symm

/-- Witness for `c8_clean_idempotent_on_good_paths` at a concrete URL. -/
theorem c8_clean_idempotent_witness :
    acceptUrl (cleanUrl "http://example.com/a/b?x=1#frag".toList)
    ∧ cleanUrl (cleanUrl "http://example.com/a/b?x=1#frag".toList)
        = cleanUrl "http://example.com/a/b?x=1#frag".toList :=
  c8_clean_idempotent_on_good_paths "http://example.com/a/b?x=1#frag".toList
    (by decide) (by decide)

/-! ### C7: depth invariants of the crawl and the assembled graph -/

namespace C7

/-- `lookup` hits in the left part of an append. -/
theorem lookup_append_left {v : String} {x : Nat}
    (l₁ l₂ : List (String × Nat)) (h : l₁.lookup v = some x) :
    (l₁ ++ l₂).lookup v = some x := by
  induction l₁ with
  | nil => simp [List.lookup] at h
  | cons hd tl ih =>
    obtain ⟨a, b⟩ := hd
    by_cases hva : v = a
    · simpa [List.lookup, hva] using h
    · simp only [List.cons_append, List.lookup] at h ⊢
      have hb : (v == a) = false := by simpa using hva
      simp only [hb] at h ⊢
      exact ih h

/-- A `lookup` hit in `l ++ [(u, y)]` is a hit in `l` or the appended pair. -/
theorem lookup_append_cases {v : String} {x : Nat} (l : List (String × Nat))
    (u : String) (y : Nat) (h : (l ++ [(u, y)]).lookup v = some x) :
    l.lookup v = some x ∨ (v = u ∧ x = y) := by
  induction l with
  | nil =>
    by_cases hvu : v = u
    · right
      refine ⟨hvu, ?_⟩
      simpa [List.lookup, hvu] using h.symm
    · exfalso
      have hb : (v == u) = false := by simpa using hvu
      simp [List.lookup, hb] at h
  | cons hd tl ih =>
    obtain ⟨a, b⟩ := hd
    by_cases hva : v = a
    · left
      simpa [List.lookup, hva] using h
    · have hb : (v == a) = false := by simpa using hva
      simp only [List.cons_append, List.lookup, hb] at h ⊢
      exact ih h

/-- A missed `lookup` passes to the right part of an append. -/
theorem lookup_append_right {v : String} (l₁ l₂ : List (String × Nat))
    (h : l₁.lookup v = none) : (l₁ ++ l₂).lookup v = l₂.lookup v := by
  induction l₁ with
  | nil => simp
  | cons hd tl ih =>
    obtain ⟨a, b⟩ := hd
    by_cases hva : v = a
    · simp [List.lookup, hva] at h
    · have hb : (v == a) = false := by simpa using hva
      simp only [List.lookup, hb] at h
      simp only [List.cons_append, List.lookup, hb]
      exact ih h

/-- `addRow` never changes the depth of a node already present. -/
theorem addRow_depth_pres (g : AGraph) (r : String × String × Nat)
    (v : String) (k : Nat) (h : nodeDepth g v = some k) :
    nodeDepth (addRow g r) v = some k := by
  unfold addRow AGraph.hasNode AGraph.setDepth
  dsimp only
  unfold nodeDepth at h ⊢
  repeat' split
  all_goals first
    | exact h
    | exact lookup_append_left _ _ h
    | exact lookup_append_left _ _ (lookup_append_left _ _ h)
    | tauto

/-- Edges of `addRow`: the old edges plus the row's edge. -/
theorem addRow_edges (g : AGraph) (r : String × String × Nat)
    (s t : String) :
    (s, t) ∈ (addRow g r).edges ↔
      (s, t) ∈ g.edges ∨ (s = r.1 ∧ t = r.2.1) := by
  unfold addRow AGraph.hasNode AGraph.setDepth
  dsimp only
  repeat' split
  all_goals try dsimp only at *
  all_goals try simp only [List.mem_append, List.mem_singleton, Prod.mk.injEq]
  all_goals first
    | tauto
    | (rename_i hedge
       constructor
       · intro hm; exact Or.inl hm
       · intro hm
         rcases hm with hm | ⟨h1, h2⟩
         · exact hm
         · subst h1; subst h2; exact hedge)

/-- Any depth present after `addRow` was present before or comes from the
row: the source at the row depth, or the target at the row depth plus one. -/
theorem addRow_depth_src (g : AGraph) (r : String × String × Nat)
    (v : String) (k : Nat) (h : nodeDepth (addRow g r) v = some k) :
    nodeDepth g v = some k ∨ (v = r.1 ∧ k = r.2.2)
      ∨ (v = r.2.1 ∧ k = r.2.2 + 1) := by
  unfold addRow AGraph.hasNode AGraph.setDepth at h
  dsimp only at h
  unfold nodeDepth at h ⊢
  repeat' split at h
  all_goals first
    | exact Or.inl h
    | tauto
    | (rcases lookup_append_cases _ _ _ h with h1 | ⟨h1, h2⟩
       · exact Or.inl h1
       · exact Or.inr (Or.inl ⟨h1, h2⟩))
    | (rcases lookup_append_cases _ _ _ h with h1 | ⟨h1, h2⟩
       · exact Or.inl h1
       · exact Or.inr (Or.inr ⟨h1, h2⟩))
    | (rcases lookup_append_cases _ _ _ h with h1 | ⟨h1, h2⟩
       · rcases lookup_append_cases _ _ _ h1 with h3 | ⟨h3, h4⟩
         · exact Or.inl h3
         · exact Or.inr (Or.inl ⟨h3, h4⟩)
       · exact Or.inr (Or.inr ⟨h1, h2⟩))

/-- After `addRow` the row's target node is present. -/
theorem addRow_target_present (g : AGraph) (r : String × String × Nat) :
    ∃ k, nodeDepth (addRow g r) r.2.1 = some k := by
  unfold addRow AGraph.hasNode AGraph.setDepth
  dsimp only
  unfold nodeDepth
  repeat' split
  all_goals try dsimp only at *
  all_goals first
    | tauto
    | (rename_i ht he
       exact Option.isSome_iff_exists.mp ht)
    | (rename_i hti he
       refine ⟨r.2.2 + 1, ?_⟩
       rw [lookup_append_right _ _ (Option.not_isSome_iff_eq_none.mp hti)]
       simp [List.lookup])

/-- Folding rows never changes the depth of a node already present
(first write wins). -/
theorem foldl_depth_pres (R : List (String × String × Nat)) :
    ∀ (g : AGraph) (v : String) (k : Nat), nodeDepth g v = some k →
      nodeDepth (R.foldl addRow g) v = some k := by
  induction R with
  | nil => intro g v k h; simpa using h
  | cons r R ih =>
    intro g v k h
    exact ih _ _ _ (addRow_depth_pres g r v k h)

/-- Every assembled depth is an initial depth or comes from some row. -/
theorem foldl_depth_src (R : List (String × String × Nat)) :
    ∀ (g : AGraph) (v : String) (k : Nat),
      nodeDepth (R.foldl addRow g) v = some k →
      nodeDepth g v = some k
        ∨ ∃ r ∈ R, (v = r.1 ∧ k = r.2.2) ∨ (v = r.2.1 ∧ k = r.2.2 + 1) := by
  induction R with
  | nil => intro g v k h; exact Or.inl (by simpa using h)
  | cons r R ih =>
    intro g v k h
    rcases ih _ _ _ h with h1 | ⟨r', hr', hcase⟩
    · rcases addRow_depth_src g r v k h1 with h2 | h2 | h2
      · exact Or.inl h2
      · exact Or.inr ⟨r, List.mem_cons_self _ _, Or.inl h2⟩
      · exact Or.inr ⟨r, List.mem_cons_self _ _, Or.inr h2⟩
    · exact Or.inr ⟨r', List.mem_cons_of_mem _ hr', hcase⟩

/-- Edge membership in the assembled graph: an initial edge or some row's
source–target pair. -/
theorem foldl_edges (R : List (String × String × Nat)) :
    ∀ (g : AGraph) (s t : String),
      ((s, t) ∈ (R.foldl addRow g).edges ↔
        (s, t) ∈ g.edges ∨ ∃ d, (s, t, d) ∈ R) := by
  induction R with
  | nil => intro g s t; simp
  | cons r R ih =>
    intro g s t
    rw [List.foldl_cons, ih, addRow_edges]
    constructor
    · intro h
      rcases h with (h | ⟨h1, h2⟩) | ⟨d, hd⟩
      · exact Or.inl h
      · subst h1; subst h2
        exact Or.inr ⟨r.2.2, by simp⟩
      · exact Or.inr ⟨d, List.mem_cons_of_mem _ hd⟩
    · intro h
      rcases h with h | ⟨d, hd⟩
      · exact Or.inl (Or.inl h)
      · rcases List.mem_cons.mp hd with h1 | h1
        · have hs : s = r.1 := congrArg Prod.fst h1
          have ht : t = r.2.1 := congrArg (fun p => p.2.1) h1
          exact Or.inl (Or.inr ⟨hs, ht⟩)
        · exact Or.inr ⟨d, h1⟩

/-- Bound on the assembled depth of a node occurring as the target of a row
at depth `d`, over a nondecreasing row list: the node's depth is at most
`d + 1`. -/
theorem foldl_depth_le (R : List (String × String × Nat)) :
    ∀ (g : AGraph) (t : String) (d : Nat),
      R.Pairwise (fun a b => a.2.2 ≤ b.2.2) →
      (∀ k₀, nodeDepth g t = some k₀ → k₀ ≤ d + 1) →
      (∃ s, (s, t, d) ∈ R) →
      ∀ k, nodeDepth (R.foldl addRow g) t = some k → k ≤ d + 1 := by
  induction R with
  | nil => intro g t d _ _ hmem k _; exact absurd hmem.choose_spec (by simp)
  | cons r R ih =>
    intro g t d hsort hg hmem k hk
    obtain ⟨s, hs⟩ := hmem
    have hbound : ∀ k₀, nodeDepth (addRow g r) t = some k₀ →
        k₀ ≤ d + 1 := by
      intro k₀ h₀
      rcases addRow_depth_src g r t k₀ h₀ with h1 | ⟨_, h1⟩ | ⟨_, h1⟩
      · exact hg _ h1
      · -- k₀ is the depth of some row at or before the row of `t`
        rcases List.mem_cons.mp hs with h2 | h2
        · have : r.2.2 = d := by rw [← h2]
          omega
        · have hle : r.2.2 ≤ d := (List.pairwise_cons.mp hsort).1 _ h2
          omega
      · rcases List.mem_cons.mp hs with h2 | h2
        · have : r.2.2 = d := by rw [← h2]
          omega
        · have hle : r.2.2 ≤ d := (List.pairwise_cons.mp hsort).1 _ h2
          omega
    rcases List.mem_cons.mp hs with h2 | h2
    · -- the head row itself mentions `t` as target: it is present afterwards
      obtain ⟨k', hk'⟩ := addRow_target_present g r
      have hk'' : nodeDepth (List.foldl addRow (addRow g r) R) t = some k' := by
        have ht : r.2.1 = t := by rw [← h2]
        rw [← ht]
        exact foldl_depth_pres R _ _ _ hk'
      rw [List.foldl_cons] at hk
      rw [hk''] at hk
      obtain rfl : k' = k := by simpa using hk
      have ht : r.2.1 = t := by rw [← h2]
      exact hbound k' (ht ▸ hk')
    · exact ih (addRow g r) t d (List.pairwise_cons.mp hsort).2 hbound ⟨s, h2⟩ k hk

/-- `setDepth` leaves the edge list unchanged. -/
theorem setDepth_edges (g : AGraph) (u : String) (k : Nat) :
    (g.setDepth u k).edges = g.edges := rfl

/-- Depth lookup after `setDepth`. -/
theorem setDepth_depth (g : AGraph) (u : String) (k : Nat) (v : String) :
    nodeDepth (g.setDepth u k) v =
      if v = u then (nodeDepth g u).map (fun _ => k) else nodeDepth g v := by
  unfold AGraph.setDepth nodeDepth
  dsimp only
  induction g.nodes with
  | nil => by_cases hvu : v = u <;> simp [hvu]
  | cons hd tl ih =>
    obtain ⟨a, b⟩ := hd
    simp only [List.map_cons]
    by_cases hau : a = u
    · subst hau
      rw [if_pos rfl]
      by_cases hva : v = a
      · subst hva
        have hb : (v == v) = true := by simp
        simp only [List.lookup, hb, if_pos rfl]
        simp
      · have hb : (v == a) = false := by simpa using hva
        simp only [List.lookup, hb, if_neg hva]
        simpa [hva] using ih
    · rw [if_neg hau]
      by_cases hva : v = a
      · subst hva
        have hvu : ¬v = u := hau
        have hb : (v == v) = true := by simp
        simp only [List.lookup, hb, if_neg hvu]
      · have hb : (v == a) = false := by simpa using hva
        have hb2 : (u == a) = false := by simpa using Ne.symm hau
        simp only [List.lookup, hb, hb2]
        exact ih

/-- A reflexive relation holding pairwise along a list holds between any two
members, provided it is symmetric. -/
theorem pairwise_total {α : Type} (S : α → α → Prop)
    (hsym : ∀ a b, S a b → S b a) (hrefl : ∀ a, S a a) :
    ∀ (l : List α), l.Pairwise S → ∀ a ∈ l, ∀ b ∈ l, S a b := by
  intro l
  induction l with
  | nil => intro _ a ha; simp at ha
  | cons hd tl ih =>
    intro hp a ha b hb
    obtain ⟨hhd, htl⟩ := List.pairwise_cons.mp hp
    rcases List.mem_cons.mp ha with ha1 | ha1 <;>
      rcases List.mem_cons.mp hb with hb1 | hb1
    · rw [ha1, hb1]; exact hrefl _
    · rw [ha1]; exact hhd _ hb1
    · rw [hb1]; exact hsym _ _ (hhd _ ha1)
    · exact ih htl _ ha1 _ hb1

/-- The rows-level conditions that make the assembled graph satisfy the
depth inequality: nondecreasing depths, per-source depth constancy, the
target-to-source depth linkage, and seed rows at depth 0. -/
theorem assemble_rows_good (R : List (String × String × Nat)) (seed : String)
    (hsort : R.Pairwise (fun a b => a.2.2 ≤ b.2.2))
    (hconst : ∀ r ∈ R, ∀ r' ∈ R, r.1 = r'.1 → r.2.2 = r'.2.2)
    (hlink : ∀ a ∈ R, ∀ b ∈ R, b.1 = a.2.1 → b.2.2 ≤ a.2.2 + 1)
    (hseed : ∀ r ∈ R, r.1 = seed → r.2.2 = 0) :
    (∀ s t ks kt, (s, t) ∈ (create_graph_from_duckdb R seed).edges →
        nodeDepth (create_graph_from_duckdb R seed) s = some ks →
        nodeDepth (create_graph_from_duckdb R seed) t = some kt →
        kt ≤ ks + 1)
    ∧ (AGraph.hasNode (create_graph_from_duckdb R seed) seed = true →
        nodeDepth (create_graph_from_duckdb R seed) seed = some 0) := by
  have hedge : ∀ s t, (s, t) ∈ (assembleRows R).edges → ∃ d, (s, t, d) ∈ R := by
    intro s t h
    have h2 := (foldl_edges R ⟨[], []⟩ s t).mp h
    simpa using h2
  have hgen : ∀ s t d ks kt, (s, t, d) ∈ R →
      nodeDepth (assembleRows R) s = some ks →
      nodeDepth (assembleRows R) t = some kt → kt ≤ ks + 1 := by
    intro s t d ks kt hr hks hkt
    have hktle : kt ≤ d + 1 :=
      foldl_depth_le R ⟨[], []⟩ t d hsort
        (fun k₀ h => absurd h (by simp [nodeDepth, List.lookup])) ⟨s, hr⟩ kt hkt
    rcases foldl_depth_src R ⟨[], []⟩ s ks hks with h1 | ⟨r', hr', hcase⟩
    · exact absurd h1 (by simp [nodeDepth, List.lookup])
    · rcases hcase with ⟨h1, h2⟩ | ⟨h1, h2⟩
      · have h3 : r'.2.2 = d := hconst r' hr' (s, t, d) hr (by rw [← h1])
        omega
      · have h3 : d ≤ r'.2.2 + 1 := hlink r' hr' (s, t, d) hr (by rw [← h1])
        omega
  have hseedsrc : ∀ t d kt, (seed, t, d) ∈ R →
      nodeDepth (assembleRows R) t = some kt → kt ≤ 1 := by
    intro t d kt hr hkt
    have hd : d = 0 := hseed (seed, t, d) hr rfl
    subst hd
    exact foldl_depth_le R ⟨[], []⟩ t 0 hsort
      (fun k₀ h => absurd h (by simp [nodeDepth, List.lookup])) ⟨seed, hr⟩ kt hkt
  unfold create_graph_from_duckdb
  dsimp only
  by_cases hG : (assembleRows R).hasNode seed = true
  · rw [if_pos hG]
    obtain ⟨k₀, hk₀⟩ : ∃ k₀, nodeDepth (assembleRows R) seed = some k₀ :=
      Option.isSome_iff_exists.mp hG
    constructor
    · intro s t ks kt he hks hkt
      rw [setDepth_edges] at he
      obtain ⟨d, hd⟩ := hedge s t he
      rw [setDepth_depth] at hks hkt
      by_cases hts : t = seed
      · rw [if_pos hts, hk₀] at hkt
        have h4 : kt = 0 := by simpa using hkt.symm
        omega
      · rw [if_neg hts] at hkt
        by_cases hss : s = seed
        · subst hss
          have h4 := hseedsrc t d kt hd hkt
          omega
        · rw [if_neg hss] at hks
          exact hgen s t d ks kt hd hks hkt
    · intro h5
      rw [setDepth_depth, if_pos rfl, hk₀]
      rfl
  · rw [if_neg hG]
    constructor
    · intro s t ks kt he hks hkt
      obtain ⟨d, hd⟩ := hedge s t he
      exact hgen s t d ks kt hd hks hkt
    · intro hcontra
      exact absurd hcontra hG

/-- Binary relations that hold between any two list elements give `Pairwise`. -/
theorem pairwise_of_all {α : Type} {S : α → α → Prop} (h : ∀ a b, S a b) :
    ∀ l : List α, l.Pairwise S := by
  intro l
  induction l with
  | nil => exact List.Pairwise.nil
  | cons hd tl ih => exact List.Pairwise.cons (fun b _ => h hd b) ih

/-- The crawl-time invariant connecting the rows table, the frontier deque
and the visited set: every not-yet-visited row target still has a frontier
entry no deeper than the row depth plus one; the frontier depths are
nondecreasing and span at most two consecutive levels; all row depths are
at most all frontier depths and are themselves nondecreasing; row sources
are visited, share one depth per source, and obey the target-to-source
linkage; seed rows and seed frontier entries sit at depth 0. -/
structure Inv (seed : String) (maxD : Nat) (st : CrawlState) : Prop where
  pend : ∀ r ∈ st.rows, r.2.1 ∉ st.visited → r.2.2 + 1 ≤ maxD →
      ∃ k, (r.2.1, k) ∈ st.queue ∧ k ≤ r.2.2 + 1
  qsort : st.queue.Pairwise (fun a b => a.2 ≤ b.2)
  qband : ∀ a ∈ st.queue, ∀ b ∈ st.queue, a.2 ≤ b.2 + 1
  rque : ∀ r ∈ st.rows, ∀ q ∈ st.queue, r.2.2 ≤ q.2
  rsort : st.rows.Pairwise (fun a b => a.2.2 ≤ b.2.2)
  rsrc : ∀ r ∈ st.rows, r.1 ∈ st.visited
  rconst : ∀ r ∈ st.rows, ∀ r' ∈ st.rows, r.1 = r'.1 → r.2.2 = r'.2.2
  rlink : st.rows.Pairwise (fun a b => b.1 = a.2.1 → b.2.2 ≤ a.2.2 + 1)
  rseed : ∀ r ∈ st.rows, r.1 = seed → r.2.2 = 0
  vinit : st.visited = [] → st.queue = [(seed, 0)]
  vseed : st.visited ≠ [] → seed ∈ st.visited
  qseed : ∀ q ∈ st.queue, q.1 = seed → q.2 = 0

/-- The invariant holds initially. -/
theorem inv_init (seed : String) (maxD : Nat) :
    Inv seed maxD (CrawlManager.initState seed) := by
  constructor <;> simp [CrawlManager.initState]

/-- The invariant is preserved by a skipped dequeue (already-visited URL or
URL beyond the depth limit). -/
theorem inv_skip (seed : String) (maxD : Nat) (st : CrawlState)
    (u : String) (d : Nat) (rest : List (String × Nat))
    (hq : st.queue = (u, d) :: rest)
    (hc : u ∈ st.visited ∨ maxD < d)
    (h : Inv seed maxD st) :
    Inv seed maxD { st with queue := rest } := by
  obtain ⟨pend, qsort, qband, rque, rsort, rsrc, rconst, rlink, rseed,
    vinit, vseed, qseed⟩ := h
  rw [hq] at pend qsort qband rque vinit qseed
  constructor
  case pend =>
    intro r hr hnv hle
    obtain ⟨k, hk, hkle⟩ := pend r hr hnv hle
    rcases List.mem_cons.mp hk with h1 | h1
    · exfalso
      have hu : u = r.2.1 := (congrArg Prod.fst h1).symm
      have hk2 : k = d := congrArg Prod.snd h1
      rcases hc with hc | hc
      · exact hnv (hu ▸ hc)
      · omega
    · exact ⟨k, h1, hkle⟩
  case qsort => exact (List.pairwise_cons.mp qsort).2
  case qband =>
    intro a ha b hb
    exact qband a (List.mem_cons_of_mem _ ha) b (List.mem_cons_of_mem _ hb)
  case rque =>
    intro r hr q hqm
    exact rque r hr q (List.mem_cons_of_mem _ hqm)
  case rsort => exact rsort
  case rsrc => exact rsrc
  case rconst => exact rconst
  case rlink => exact rlink
  case rseed => exact rseed
  case vinit =>
    intro hv
    exfalso
    have h2 := vinit hv
    have hu : u = seed := congrArg (fun l => (l.headI).1) h2
    have hd0 : d = 0 := congrArg (fun l => (l.headI).2) h2
    rcases hc with hc | hc
    · rw [hv] at hc
      simp at hc
    · omega
  case vseed => exact vseed
  case qseed =>
    intro q hqm hq1
    exact qseed q (List.mem_cons_of_mem _ hqm) hq1

/-- The invariant is preserved by a processed dequeue: the URL is marked
visited, a row per link is appended at the current depth, and unvisited
links join the frontier one level deeper. -/
theorem inv_proc (links : String → List String) (seed : String) (maxD : Nat)
    (st : CrawlState) (u : String) (d : Nat) (rest : List (String × Nat))
    (hq : st.queue = (u, d) :: rest)
    (hnv : u ∉ st.visited) (hdm : d ≤ maxD)
    (h : Inv seed maxD st) :
    Inv seed maxD
      { visited := st.visited ++ [u],
        queue := rest ++
          ((links u).filter (fun l => l ∉ st.visited ++ [u])).map
            (fun l => (l, d + 1)),
        graph := (links u).foldl (fun g l => g.addEdge u l)
          (st.graph.addNodeDepth u d),
        rows := st.rows ++ (links u).map (fun l => (u, l, d)),
        fetched := st.fetched ++ [u] } := by
  obtain ⟨pend, qsort, qband, rque, rsort, rsrc, rconst, rlink, rseed,
    vinit, vseed, qseed⟩ := h
  rw [hq] at pend qsort qband rque vinit qseed
  have hhead : ((u, d) : String × Nat) ∈ (u, d) :: rest := List.mem_cons_self _ _
  have hrest : ∀ q ∈ rest, d ≤ q.2 := (List.pairwise_cons.mp qsort).1
  have hband : ∀ q ∈ rest, q.2 ≤ d + 1 := by
    intro q hq'
    exact qband q (List.mem_cons_of_mem _ hq') (u, d) hhead
  have hrowd : ∀ r ∈ st.rows, r.2.2 ≤ d := by
    intro r hr
    exact rque r hr (u, d) hhead
  have hseedV : seed ∈ st.visited ++ [u] := by
    by_cases hv : st.visited = []
    · have h2 := vinit hv
      have hu : u = seed := congrArg (fun l => (List.headI l).1) h2
      rw [hu]
      simp
    · exact List.mem_append_left _ (vseed hv)
  constructor
  case pend =>
    intro r hr hnvr hle
    rcases List.mem_append.mp hr with hr1 | hr1
    · have hnv2 : r.2.1 ∉ st.visited :=
        fun hcon => hnvr (List.mem_append_left _ hcon)
      obtain ⟨k, hk, hkle⟩ := pend r hr1 hnv2 hle
      rcases List.mem_cons.mp hk with h1 | h1
      · exfalso
        have hu : r.2.1 = u := congrArg Prod.fst h1
        exact hnvr (by rw [hu]; simp)
      · exact ⟨k, List.mem_append_left _ h1, hkle⟩
    · obtain ⟨l, hl, hrl⟩ := List.mem_map.mp hr1
      have hr21 : r.2.1 = l := by rw [← hrl]
      have hr22 : r.2.2 = d := by rw [← hrl]
      refine ⟨d + 1, ?_, by omega⟩
      rw [hr21]
      apply List.mem_append_right
      apply List.mem_map.mpr
      refine ⟨l, ?_, rfl⟩
      apply List.mem_filter.mpr
      refine ⟨hl, ?_⟩
      simp only [decide_eq_true_eq]
      rw [← hr21]
      exact hnvr
  case qsort =>
    apply List.pairwise_append.mpr
    refine ⟨(List.pairwise_cons.mp qsort).2, ?_, ?_⟩
    · apply List.pairwise_map.mpr
      exact pairwise_of_all (fun a b => Nat.le_refl _) _
    · intro a ha b hb
      obtain ⟨l, hl, hbl⟩ := List.mem_map.mp hb
      have hb2 : b.2 = d + 1 := by rw [← hbl]
      rw [hb2]
      exact hband a ha
  case qband =>
    intro a ha b hb
    rcases List.mem_append.mp ha with ha1 | ha1 <;>
      rcases List.mem_append.mp hb with hb1 | hb1
    · exact qband a (List.mem_cons_of_mem _ ha1) b (List.mem_cons_of_mem _ hb1)
    · obtain ⟨l, hl, hbl⟩ := List.mem_map.mp hb1
      have hb2 : b.2 = d + 1 := by rw [← hbl]
      have h3 := hband a ha1
      omega
    · obtain ⟨l, hl, hal⟩ := List.mem_map.mp ha1
      have ha2 : a.2 = d + 1 := by rw [← hal]
      have h3 := hrest b hb1
      omega
    · obtain ⟨l, hl, hal⟩ := List.mem_map.mp ha1
      obtain ⟨l', hl', hbl⟩ := List.mem_map.mp hb1
      have ha2 : a.2 = d + 1 := by rw [← hal]
      have hb2 : b.2 = d + 1 := by rw [← hbl]
      omega
  case rque =>
    intro r hr q hqm
    rcases List.mem_append.mp hr with hr1 | hr1 <;>
      rcases List.mem_append.mp hqm with hq1 | hq1
    · exact rque r hr1 q (List.mem_cons_of_mem _ hq1)
    · obtain ⟨l, hl, hql⟩ := List.mem_map.mp hq1
      have hq2 : q.2 = d + 1 := by rw [← hql]
      have h3 := hrowd r hr1
      omega
    · obtain ⟨l, hl, hrl⟩ := List.mem_map.mp hr1
      have hr2 : r.2.2 = d := by rw [← hrl]
      have h3 := hrest q hq1
      omega
    · obtain ⟨l, hl, hrl⟩ := List.mem_map.mp hr1
      obtain ⟨l', hl', hql⟩ := List.mem_map.mp hq1
      have hr2 : r.2.2 = d := by rw [← hrl]
      have hq2 : q.2 = d + 1 := by rw [← hql]
      omega
  case rsort =>
    apply List.pairwise_append.mpr
    refine ⟨rsort, ?_, ?_⟩
    · apply List.pairwise_map.mpr
      exact pairwise_of_all (fun a b => Nat.le_refl _) _
    · intro a ha b hb
      obtain ⟨l, hl, hbl⟩ := List.mem_map.mp hb
      have hb2 : b.2.2 = d := by rw [← hbl]
      rw [hb2]
      exact hrowd a ha
  case rsrc =>
    intro r hr
    rcases List.mem_append.mp hr with hr1 | hr1
    · exact List.mem_append_left _ (rsrc r hr1)
    · obtain ⟨l, hl, hrl⟩ := List.mem_map.mp hr1
      have hr1' : r.1 = u := by rw [← hrl]
      rw [hr1']
      simp
  case rconst =>
    intro r hr r' hr'
    rcases List.mem_append.mp hr with hr1 | hr1 <;>
      rcases List.mem_append.mp hr' with hr2 | hr2
    · exact rconst r hr1 r' hr2
    · intro h1
      exfalso
      obtain ⟨l, hl, hrl⟩ := List.mem_map.mp hr2
      have hr1' : r'.1 = u := by rw [← hrl]
      exact hnv (hr1' ▸ h1 ▸ rsrc r hr1)
    · intro h1
      exfalso
      obtain ⟨l, hl, hrl⟩ := List.mem_map.mp hr1
      have hr1' : r.1 = u := by rw [← hrl]
      exact hnv (hr1' ▸ h1.symm ▸ rsrc r' hr2)
    · intro h1
      obtain ⟨l, hl, hrl⟩ := List.mem_map.mp hr1
      obtain ⟨l', hl', hrl'⟩ := List.mem_map.mp hr2
      have ha : r.2.2 = d := by rw [← hrl]
      have hb : r'.2.2 = d := by rw [← hrl']
      rw [ha, hb]
  case rlink =>
    apply List.pairwise_append.mpr
    refine ⟨rlink, ?_, ?_⟩
    · apply List.pairwise_map.mpr
      apply pairwise_of_all
      intro a b _
      simp
    · intro a ha b hb hab
      obtain ⟨l, hl, hbl⟩ := List.mem_map.mp hb
      have hb1 : b.1 = u := by rw [← hbl]
      have hb2 : b.2.2 = d := by rw [← hbl]
      have hau : a.2.1 = u := by rw [← hab, hb1]
      have hanv : a.2.1 ∉ st.visited := hau ▸ hnv
      rw [hb2]
      by_cases hcase : a.2.2 + 1 ≤ maxD
      · obtain ⟨k, hk, hkle⟩ := pend a ha hanv hcase
        rcases List.mem_cons.mp hk with h1 | h1
        · have hkd : k = d := congrArg Prod.snd h1
          omega
        · have h6 : d ≤ k := hrest _ h1
          omega
      · omega
  case rseed =>
    intro r hr h1
    rcases List.mem_append.mp hr with hr1 | hr1
    · exact rseed r hr1 h1
    · obtain ⟨l, hl, hrl⟩ := List.mem_map.mp hr1
      have hr1' : r.1 = u := by rw [← hrl]
      have hr2 : r.2.2 = d := by rw [← hrl]
      rw [hr2]
      exact qseed (u, d) hhead (by rw [← hr1', h1])
  case vinit =>
    intro hcon
    simp at hcon
  case vseed =>
    intro _
    exact hseedV
  case qseed =>
    intro q hqm h1
    rcases List.mem_append.mp hqm with hq1 | hq1
    · exact qseed q (List.mem_cons_of_mem _ hq1) h1
    · exfalso
      obtain ⟨l, hl, hql⟩ := List.mem_map.mp hq1
      have hfl := (List.mem_filter.mp hl).2
      simp only [decide_eq_true_eq] at hfl
      have hq1' : q.1 = l := by rw [← hql]
      have hls : l = seed := by rw [← hq1', h1]
      rw [hls] at hfl
      exact hfl hseedV

/-- The invariant is preserved by any number of loop iterations. -/
theorem inv_crawl (links : String → List String) (seed : String) (maxD : Nat) :
    ∀ fuel st, Inv seed maxD st →
      Inv seed maxD (CrawlManager.crawl links maxD fuel st) := by
  intro fuel
  induction fuel with
  | zero => intro st h; simpa [CrawlManager.crawl] using h
  | succ n ih =>
    intro st h
    rw [CrawlManager.crawl]
    cases hq : st.queue with
    | nil => exact h
    | cons p rest =>
      obtain ⟨u, d⟩ := p
      by_cases hc : u ∈ st.visited ∨ maxD < d
      · simp only [hc, if_true]
        exact ih _ (inv_skip seed maxD st u d rest hq hc h)
      · simp only [hc, if_false]
        push_neg at hc
        exact ih _ (inv_proc links seed maxD st u d rest hq hc.1 hc.2 h)

end C7

namespace C7

/-- C7: for every link structure, seed, depth limit and number of loop
iterations, the graph `create_graph_from_duckdb` assembles from the crawl's
stored rows satisfies the depth inequality: every edge's target depth is at
most its source depth plus one, and the seed's depth is 0 whenever the seed
is a node. -/
theorem c7_assembled_depth_inequality (links : String → List String)
    (seed : String) (maxD fuel : Nat) :
    (∀ s t ks kt,
        (s, t) ∈ (create_graph_from_duckdb
            (CrawlManager.crawlRun links seed maxD fuel).rows seed).edges →
        nodeDepth (create_graph_from_duckdb
            (CrawlManager.crawlRun links seed maxD fuel).rows seed) s
          = some ks →
        nodeDepth (create_graph_from_duckdb
            (CrawlManager.crawlRun links seed maxD fuel).rows seed) t
          = some kt →
        kt ≤ ks + 1)
    ∧ (AGraph.hasNode (create_graph_from_duckdb
          (CrawlManager.crawlRun links seed maxD fuel).rows seed) seed
          = true →
        nodeDepth (create_graph_from_duckdb
            (CrawlManager.crawlRun links seed maxD fuel).rows seed) seed
          = some 0) := by
  have hinv := inv_crawl links seed maxD fuel _ (inv_init seed maxD)
  apply assemble_rows_good
  · exact hinv.rsort
  · exact hinv.rconst
  · have hS : (CrawlManager.crawlRun links seed maxD fuel).rows.Pairwise
        (fun a b => (b.1 = a.2.1 → b.2.2 ≤ a.2.2 + 1)
          ∧ (a.1 = b.2.1 → a.2.2 ≤ b.2.2 + 1)) :=
      hinv.rlink.and (hinv.rsort.imp (fun hab => fun _ => Nat.le_succ_of_le hab))
    intro a ha b hb
    exact (pairwise_total _ (fun a b hS' => ⟨hS'.2, hS'.1⟩)
      (fun a => ⟨fun _ => Nat.le_succ _, fun _ => Nat.le_succ _⟩)
      _ hS a ha b hb).1
  · exact hinv.rseed

/-- Witness for `c7_assembled_depth_inequality` on a concrete crawl. -/
theorem c7_assembled_depth_inequality_witness :
    ((1 : Nat) ≤ 0 + 1)
    ∧ nodeDepth (create_graph_from_duckdb
        (CrawlManager.crawlRun links2 "a" 5 10).rows "a") "a" = some 0 :=
  ⟨(c7_assembled_depth_inequality links2 "a" 5 10).1 "a" "b" 0 1
      (by decide) (by decide) (by decide),
   (c7_assembled_depth_inequality links2 "a" 5 10).2 (by decide)⟩

end C7
